import Mathlib

/-!
# Verification of the stdfx configuration engine

A shallow embedding of the `configfx` subsystem of the `choopm/stdfx`
repository: the overlay-splicing algorithm (`Overlay.applyTo`), the
structural document merge, segment parsing for the bracket selector
grammar, the from-path resolution walk, the provider's cached viper
construction, the environment-key derivation, and the duration decode
hook.  Theorems at the end of the file settle the specification claims
against these definitions.
-/

namespace Stdfx

/-- A configuration document value: the in-memory tree viper produces
from YAML/JSON (`map[string]any` in Go).  Maps are association lists
(Go maps are unordered; well-formedness below requires unique keys). -/
inductive Val where
  | vnull : Val
  | vstr  (s : String) : Val
  | vint  (n : Int) : Val
  | vmap  (es : List (String × Val)) : Val
  | vlist (es : List Val) : Val
deriving Repr

namespace Val

mutual

def decEqVal : (a b : Val) → Decidable (a = b)
  | .vnull, .vnull => isTrue rfl
  | .vstr s, .vstr t =>
    if h : s = t then isTrue (by rw [h]) else isFalse (by intro e; cases e; exact h rfl)
  | .vint m, .vint n =>
    if h : m = n then isTrue (by rw [h]) else isFalse (by intro e; cases e; exact h rfl)
  | .vmap es, .vmap fs =>
    match decEqPairs es fs with
    | isTrue h => isTrue (by rw [h])
    | isFalse h => isFalse (by intro e; cases e; exact h rfl)
  | .vlist es, .vlist fs =>
    match decEqElems es fs with
    | isTrue h => isTrue (by rw [h])
    | isFalse h => isFalse (by intro e; cases e; exact h rfl)
  | .vnull, .vstr _ => isFalse fun h => Val.noConfusion h
  | .vnull, .vint _ => isFalse fun h => Val.noConfusion h
  | .vnull, .vmap _ => isFalse fun h => Val.noConfusion h
  | .vnull, .vlist _ => isFalse fun h => Val.noConfusion h
  | .vstr _, .vnull => isFalse fun h => Val.noConfusion h
  | .vstr _, .vint _ => isFalse fun h => Val.noConfusion h
  | .vstr _, .vmap _ => isFalse fun h => Val.noConfusion h
  | .vstr _, .vlist _ => isFalse fun h => Val.noConfusion h
  | .vint _, .vnull => isFalse fun h => Val.noConfusion h
  | .vint _, .vstr _ => isFalse fun h => Val.noConfusion h
  | .vint _, .vmap _ => isFalse fun h => Val.noConfusion h
  | .vint _, .vlist _ => isFalse fun h => Val.noConfusion h
  | .vmap _, .vnull => isFalse fun h => Val.noConfusion h
  | .vmap _, .vstr _ => isFalse fun h => Val.noConfusion h
  | .vmap _, .vint _ => isFalse fun h => Val.noConfusion h
  | .vmap _, .vlist _ => isFalse fun h => Val.noConfusion h
  | .vlist _, .vnull => isFalse fun h => Val.noConfusion h
  | .vlist _, .vstr _ => isFalse fun h => Val.noConfusion h
  | .vlist _, .vint _ => isFalse fun h => Val.noConfusion h
  | .vlist _, .vmap _ => isFalse fun h => Val.noConfusion h
termination_by a b => sizeOf a

def decEqPairs : (a b : List (String × Val)) → Decidable (a = b)
  | [], [] => isTrue rfl
  | [], _ :: _ => isFalse fun h => List.noConfusion h
  | _ :: _, [] => isFalse fun h => List.noConfusion h
  | (k, v) :: as, (l, w) :: bs =>
    if hk : k = l then
      match decEqVal v w with
      | isTrue hv =>
        match decEqPairs as bs with
        | isTrue ht => isTrue (by rw [hk, hv, ht])
        | isFalse ht => isFalse (by intro e; injection e with _ e2; exact ht e2)
      | isFalse hv => isFalse (by
          intro e; injection e with e1 _; injection e1 with _ e12; exact hv e12)
    else
      isFalse (by intro e; injection e with e1 _; injection e1 with e11 _; exact hk e11)
termination_by a b => sizeOf a

def decEqElems : (a b : List Val) → Decidable (a = b)
  | [], [] => isTrue rfl
  | [], _ :: _ => isFalse fun h => List.noConfusion h
  | _ :: _, [] => isFalse fun h => List.noConfusion h
  | a :: as, b :: bs =>
    match decEqVal a b with
    | isTrue hv =>
      match decEqElems as bs with
      | isTrue ht => isTrue (by rw [hv, ht])
      | isFalse ht => isFalse (by intro e; injection e with _ e2; exact ht e2)
    | isFalse hv => isFalse (by intro e; injection e with e1 _; exact hv e1)
termination_by a b => sizeOf a

end

instance : DecidableEq Val := decEqVal

/-- First-match lookup in an association list, as Go map indexing
(well-formed maps have unique keys, so first match is the match). -/
def plookup : List (String × Val) → String → Option Val
  | [], _ => none
  | (k, v) :: rest, key => if k = key then some v else plookup rest key

/-- The `name` field of a list element, when the element is a mapping. -/
def getName : Val → Option Val
  | .vmap m => plookup m "name"
  | _ => none

/-- Find the element of `l` whose `name` field equals `n`. -/
def findName : List Val → Option Val → Option Val
  | [], _ => none
  | e :: rest, n => if getName e = n then some e else findName rest n

/-- Whether every element of `l` is a mapping carrying a `name` key and
the names are pairwise distinct: the shape the selector convention uses
to address list elements by `name` instead of by position. -/
def nameListU (l : List Val) : Prop :=
  (∀ e ∈ l, (getName e).isSome) ∧ (l.map getName).Nodup

instance nameListU.dec (l : List Val) : Decidable (nameListU l) := by
  unfold nameListU; infer_instance

theorem sizeOf_plookup {es : List (String × Val)} {k : String} {v : Val}
    (h : plookup es k = some v) : sizeOf v < sizeOf es := by
  induction es with
  | nil => simp [plookup] at h
  | cons e rest ih =>
    obtain ⟨ek, ev⟩ := e
    simp only [plookup] at h
    split at h
    · cases h; simp; omega
    · have := ih h; simp; omega

theorem sizeOf_findName {l : List Val} {n : Option Val} {e : Val}
    (h : findName l n = some e) : sizeOf e < sizeOf l := by
  induction l with
  | nil => simp [findName] at h
  | cons a rest ih =>
    simp only [findName] at h
    split at h
    · cases h; simp; omega
    · have := ih h; simp; omega

mutual

/-- Structural merge of a patch document into a target document,
modelled from the spec: maps merge key-wise and recursively; lists
identified by the selector convention (all elements mappings with
pairwise-distinct `name` keys) are merged by matching the `name` key
rather than by position, unmatched patch elements being appended; any
other combination replaces the target with the patch.  In the source
this step is performed by `strategicpatch.StrategicMergeMapPatch`
followed by `viper.MergeConfigMap` (external library code not under
`src/`), so the merge itself is modelled from the spec's
structural-merge description. -/
def mergeVal : Val → Val → Val
  | .vmap t, .vmap p =>
    .vmap (mergeInto t p ++ p.filter (fun e => (plookup t e.1).isNone))
  | .vlist t, .vlist p =>
    if nameListU t ∧ nameListU p then
      .vlist (mergeNL t p ++ p.filter (fun e => (findName t (getName e)).isNone))
    else
      .vlist p
  | _, p => p
termination_by t p => sizeOf t + sizeOf p
decreasing_by
  all_goals simp_wf
  all_goals try simp
  all_goals omega

/-- Key-wise merge of patch entries into the target entries, keeping
the target's entry order. -/
def mergeInto : List (String × Val) → List (String × Val) → List (String × Val)
  | [], _ => []
  | (k, v) :: rest, p =>
    (k, match h : plookup p k with
        | some pv => mergeVal v pv
        | none => v) :: mergeInto rest p
termination_by t p => sizeOf t + sizeOf p
decreasing_by
  all_goals simp_wf
  all_goals try (have hs := sizeOf_plookup h)
  all_goals try simp at hs ⊢
  all_goals try simp
  all_goals omega

/-- Name-wise merge of patch elements into the target elements, keeping
the target's element order. -/
def mergeNL : List Val → List Val → List Val
  | [], _ => []
  | e :: rest, p =>
    (match h : findName p (getName e) with
     | some pe => mergeVal e pe
     | none => e) :: mergeNL rest p
termination_by t p => sizeOf t + sizeOf p
decreasing_by
  all_goals simp_wf
  all_goals try (have hs := sizeOf_findName h)
  all_goals try simp at hs ⊢
  all_goals try simp
  all_goals omega

end

@[simp] theorem mergeInto_nil (p : List (String × Val)) : mergeInto [] p = [] := by
  simp [mergeInto]

theorem mergeInto_cons_found {p : List (String × Val)} {k : String} {pv : Val}
    (v : Val) (rest : List (String × Val)) (h : plookup p k = some pv) :
    mergeInto ((k, v) :: rest) p = (k, mergeVal v pv) :: mergeInto rest p := by
  rw [mergeInto]; split <;> simp_all

theorem mergeInto_cons_none {p : List (String × Val)} {k : String}
    (v : Val) (rest : List (String × Val)) (h : plookup p k = none) :
    mergeInto ((k, v) :: rest) p = (k, v) :: mergeInto rest p := by
  rw [mergeInto]; split <;> simp_all

@[simp] theorem mergeNL_nil (p : List Val) : mergeNL [] p = [] := by
  simp [mergeNL]

theorem mergeNL_cons_found {p : List Val} {e pe : Val}
    (rest : List Val) (h : findName p (getName e) = some pe) :
    mergeNL (e :: rest) p = mergeVal e pe :: mergeNL rest p := by
  rw [mergeNL]; split <;> simp_all

theorem mergeNL_cons_none {p : List Val} {e : Val}
    (rest : List Val) (h : findName p (getName e) = none) :
    mergeNL (e :: rest) p = e :: mergeNL rest p := by
  rw [mergeNL]; split <;> simp_all

/-- Well-formedness of a document value: every mapping in the tree has
pairwise-distinct keys (Go maps cannot hold duplicate keys). -/
def wf : Val → Prop
  | .vnull | .vstr _ | .vint _ => True
  | .vmap es => (es.map Prod.fst).Nodup ∧ ∀ e ∈ es, wf e.2
  | .vlist es => ∀ e ∈ es, wf e
termination_by v => sizeOf v
decreasing_by
  all_goals simp_wf
  all_goals rename_i hmem
  all_goals have := List.sizeOf_lt_of_mem hmem
  · cases e; simp at this ⊢; omega
  · simp at this ⊢; omega

end Val

open Val

/-! ## Overlay engine (`Overlay.applyTo`, src/unnamed/part_006) -/

/-- Errors produced by `Overlay.applyTo`; each constructor mirrors one
`fmt.Errorf` site in the source and carries the same arguments. -/
inductive ApplyErr where
  | fromFieldNotFound (field path filename : String)
  | fromNil (path filename : String)
  | selectorNotName (filename : String)
  | selectorNotMap (filename : String)
  | mapCast (filename : String)
deriving DecidableEq, Repr

/-- A configuration overlay (`configfx.Overlay`): the overlay file name,
the source path `From` and the target paths `To` (the internal viper
handle and watch guard are I/O state and are represented by passing the
parsed overlay document to `applyTo` explicitly). -/
structure Overlay where
  Filename : String
  From : String
  To : List String
deriving DecidableEq, Repr

/-- `strings.Split s "."` : split on every dot; never empty, keeps
empty segments. -/
def splitAux : List Char → List Char → List String
  | [], acc => [String.mk acc.reverse]
  | c :: rest, acc =>
    if c = '.' then String.mk acc.reverse :: splitAux rest []
    else splitAux rest (c :: acc)

/-- Split a dotted path into its segments, as `strings.Split(path, ".")`. -/
def splitDots (s : String) : List String := splitAux s.data []

/-- `strings.Contains key "["`. -/
def hasBracket (s : String) : Bool := s.data.contains '['

/-- `strings.TrimRight (strings.TrimLeft key "[") "]"`: drop every
leading `[` and every trailing `]`. -/
def trimSelector (s : String) : String :=
  String.mk (((s.data.dropWhile (· = '[')).reverse.dropWhile (· = ']')).reverse)

def cutEqAux : List Char → Option (List Char × List Char)
  | [] => none
  | c :: rest =>
    if c = '=' then some ([], rest)
    else match cutEqAux rest with
      | some (a, b) => some (c :: a, b)
      | none => none

/-- `strings.Cut s "="`: split around the first `=`; the boolean
reports whether a `=` was found. -/
def cutEq (s : String) : String × String × Bool :=
  match cutEqAux s.data with
  | some (a, b) => (String.mk a, String.mk b, true)
  | none => (s, "", false)

/-- Go map assignment `m[k] = v`: replace the binding if present,
otherwise add it. -/
def setKey : List (String × Val) → String → Val → List (String × Val)
  | [], k, v => [(k, v)]
  | (k', v') :: rest, k, v =>
    if k' = k then (k, v) :: rest else (k', v') :: setKey rest k v

/-- One step of the forging loop of `applyTo` (one path segment,
processed right to left): a bracket segment is parsed as a selector,
a plain segment wraps the accumulator one map level deeper. -/
def forgeSeg (filename key : String) (acc : Val) : Except ApplyErr Val :=
  if hasBracket key then
    let trimmed := trimSelector key
    let (a, b, ok) := cutEq trimmed
    if a ≠ "name" then .error (.selectorNotName filename)
    else if ok then
      match acc with
      | .vmap m => .ok (.vlist [.vmap (setKey m "name" (.vstr b))])
      | _ => .error (.selectorNotMap filename)
    else .ok acc
  else .ok (.vmap [(key, acc)])

/-- Forge the patch fragment for one `To` path: walk the segments right
to left starting from the resolved `From` value. -/
def forge (filename : String) : List String → Val → Except ApplyErr Val
  | [], v => .ok v
  | s :: rest, v => do forgeSeg filename s (← forge filename rest v)

/-- The from-path resolution loop of `applyTo`: look each segment up in
the current slice; a slice only advances when the value found is a
mapping (as in the source, where a non-mapping value leaves the slice
unchanged for the next iteration). -/
def resolveLoop (path filename : String) :
    List (String × Val) → Option Val → List String → Except ApplyErr Val
  | _, acc, [] =>
    match acc with
    | some v => if v = .vnull then .error (.fromNil path filename) else .ok v
    | none => .error (.fromNil path filename)
  | slice, _, elem :: rest =>
    match plookup slice elem with
    | none => .error (.fromFieldNotFound elem path filename)
    | some v =>
      resolveLoop path filename
        (match v with | .vmap m => m | _ => slice) (some v) rest

/-- Resolve an overlay's `From` path inside the parsed overlay
document. -/
def resolveFrom (ov : Overlay) (overlayDoc : List (String × Val)) :
    Except ApplyErr Val :=
  resolveLoop ov.From ov.Filename overlayDoc none (splitDots ov.From)

/-- The per-path loop of `applyTo`: forge the fragment for each `To`
path, require the fragment to be a mapping, and merge it into the
(live) target document; an error aborts the loop, returning the
document as merged so far. -/
def applyPaths (filename : String) (v : Val) (doc : Val) :
    List String → Val × Option ApplyErr
  | [] => (doc, none)
  | path :: rest =>
    match forge filename (splitDots path) v with
    | .error e => (doc, some e)
    | .ok forged =>
      match forged with
      | .vmap _ => applyPaths filename v (mergeVal doc forged) rest
      | _ => (doc, some (.mapCast filename))

/-- `Overlay.applyTo`: resolve the `From` value inside the parsed
overlay document, then forge and merge a patch fragment for every `To`
path against the target document `doc` (the provider's viper settings).
Reading the overlay file from disk is I/O and is represented by the
`overlayDoc` argument; the strategic-merge-patch step is `mergeVal`
(see its docstring). -/
def Overlay.applyTo (ov : Overlay) (overlayDoc : List (String × Val))
    (doc : Val) : Val × Option ApplyErr :=
  match resolveFrom ov overlayDoc with
  | .error e => (doc, some e)
  | .ok v => applyPaths ov.Filename v doc ov.To

/-! ## Config options (src/configfx/options.go) -/

/-- `configfx.configOptions` (the `onConfigChange` callback is I/O and
is omitted; it does not participate in any claim). -/
structure ConfigOptions where
  readInConfig : Bool
  overlays : List Overlay
deriving DecidableEq, Repr

/-- `configfx.defaultConfigOptions`. -/
def defaultConfigOptions : ConfigOptions := ⟨true, []⟩

/-- `configfx.WithReadInConfig`. -/
def WithReadInConfig (value : Bool) (o : ConfigOptions) : ConfigOptions :=
  { o with readInConfig := value }

/-- `configfx.WithOverlays`: appends the given overlays to the
configured list. -/
def WithOverlays (ovs : List Overlay) (o : ConfigOptions) : ConfigOptions :=
  { o with overlays := o.overlays ++ ovs }

/-- Modelled from the spec: the overlay-application step of the
options-taking `Provider.Config(options...)` (that function is not
under `src/`; only its callers and the option builders are): "Apply
each configured Overlay (in list order; later overlays may overwrite
earlier ones at overlapping paths) to the RawDocument", each against
the live document, aborting on the first error.  Each overlay is
paired with its parsed overlay file. -/
def configApplyOverlays (doc : Val) :
    List (Overlay × List (String × Val)) → Val × Option ApplyErr
  | [] => (doc, none)
  | o :: rest =>
    match Overlay.applyTo o.1 o.2 doc with
    | (doc', none) => configApplyOverlays doc' rest
    | (doc', some e) => (doc', some e)

/-! ## Provider viper cache (src/unnamed/part_008, `providerImpl.Viper`) -/

/-- The mutable state of a `providerImpl`: the cached viper instance
(identified by an abstract identity token) and the number of times the
`Source` has been asked to construct one. -/
structure ProviderState where
  viperCache : Option Nat
  sourceCalls : Nat
deriving DecidableEq, Repr

/-- `providerImpl.Viper`: under the mutex, return the cached instance
if one was constructed before; otherwise construct a fresh instance via
the `Source` (identity `fresh`), cache it and return it. -/
def viperCall (st : ProviderState) (fresh : Nat) : ProviderState × Nat :=
  match st.viperCache with
  | some v => (st, v)
  | none => (⟨some fresh, st.sourceCalls + 1⟩, fresh)

/-- A sequence of `Viper()` invocations (each with the identity the
`Source` would hand out if it were invoked). -/
def viperCalls (st : ProviderState) : List Nat → ProviderState × List Nat
  | [] => (st, [])
  | f :: fs =>
    let p := viperCall st f
    let q := viperCalls p.1 fs
    (q.1, p.2 :: q.2)

/-! ## Environment binding (src/configfx/source.go) and defaults
(src/unnamed/part_002 struct tags) -/

/-- The `strings.NewReplacer(".", "_", "-", "_")` key replacer
installed by `SourceFile.Viper`. -/
def envKeyReplace (s : String) : String :=
  String.mk (s.data.map fun c => if c = '.' ∨ c = '-' then '_' else c)

/-- `strings.ToUpper` on ASCII configuration keys. -/
def toUpperAscii (s : String) : String :=
  String.mk (s.data.map Char.toUpper)

/-- The environment variable viper consults for a document key:
upper-case `prefix + "_" + key`, then the key replacer (viper's
`AutomaticEnv` lookup with `SetEnvPrefix`/`SetEnvKeyReplacer` as
configured in `SourceFile.Viper`). -/
def envVarName (pfx key : String) : String :=
  envKeyReplace (toUpperAscii (pfx ++ "_" ++ key))

/-- `everything.WebserverConfig` (src/unnamed/part_002) with its
compiled `default:""` struct tags. -/
structure WebserverConfig where
  host : String
  port : Int
deriving DecidableEq, Repr

/-- The zero value with the compiled defaults applied
(`defaults.Set`): `host` tag `default:"0.0.0.0"`, `port` tag
`default:"8080"`. -/
def WebserverConfig.withDefaults : WebserverConfig := ⟨"0.0.0.0", 8080⟩

def lookupEnv : List (String × Int) → String → Option Int
  | [], _ => none
  | (k, v) :: rest, key => if k = key then some v else lookupEnv rest key

/-- Modelled from the spec: the value a typed integer field receives
from `Provider.Config` — compiled default first, overridden by the
base-file value when present, overridden by a matching environment
variable when present (spec steps 1 and 6; the decode itself is
performed by the external `viper.Unmarshal`/`mapstructure` machinery,
not under `src/`).  `env` holds the process environment (values already
parsed as integers). -/
def resolveIntField (defaultVal : Int) (fileVal : Option Int)
    (env : List (String × Int)) (pfx key : String) : Int :=
  match lookupEnv env (envVarName pfx key) with
  | some e => e
  | none => fileVal.getD defaultVal

/-! ## Duration decode hook (src/configfx/options.go, `decoders.Duration`) -/

/-- The relevant Go reflect types for the duration hook's two guards. -/
inductive RType where
  | stringT
  | durationT
  | otherT
deriving DecidableEq, Repr

/-- A value travelling through the decode pipeline. -/
inductive HVal where
  | str (s : String)
  | dur (ns : Int)
  | other
deriving DecidableEq, Repr

/-- Nanoseconds per duration unit; `d` and `w` extend the classic Go
`time.ParseDuration` set. -/
def unitNanos : String → Option Int
  | "ns" => some 1
  | "us" => some 1000
  | "ms" => some 1000000
  | "s" => some 1000000000
  | "m" => some 60000000000
  | "h" => some 3600000000000
  | "d" => some 86400000000000
  | "w" => some 604800000000000
  | _ => none

/-- Leading run of decimal digits, as a number (requires at least
one digit). -/
def takeDigits (cs : List Char) : Option (Nat × List Char) :=
  let ds := cs.takeWhile (·.isDigit)
  if ds = [] then none
  else some (ds.foldl (fun a c => a * 10 + (c.toNat - 48)) 0,
             cs.dropWhile (·.isDigit))

/-- Leading run of non-digits, interpreted as a duration unit. -/
def takeUnit (cs : List Char) : Option (Int × List Char) :=
  match unitNanos (String.mk (cs.takeWhile (fun c => !c.isDigit))) with
  | some u => some (u, cs.dropWhile (fun c => !c.isDigit))
  | none => none

def parseDurAux : Nat → List Char → Int → Option Int
  | _, [], acc => some acc
  | 0, _ :: _, _ => none
  | fuel + 1, c :: cs, acc =>
    match takeDigits (c :: cs) with
    | none => none
    | some (n, rest) =>
      match takeUnit rest with
      | none => none
      | some (u, rest2) => parseDurAux fuel rest2 (acc + n * u)

/-- Modelled from the spec: `str2duration.ParseDuration` (external
library, not under `src/`) — "duration strings using a superset
grammar (numeric value + unit, where recognized units include at least
seconds/minutes/hours plus days and weeks, combinable, e.g.
`4d3h2m1s`)": a non-empty sequence of `number+unit` components summed
in nanoseconds, anything else an error (`none`). -/
def parseDur (s : String) : Option Int :=
  match s.data with
  | [] => none
  | c :: cs => parseDurAux (c :: cs).length (c :: cs) 0

/-- `decoders.Duration` (src/configfx/options.go lines 101-121): if
the source kind is not string, or the target type is not
`time.Duration`, pass the value through unchanged; otherwise parse the
string with the extended grammar, failing with a decode error on
malformed input. -/
def Duration (f t : RType) (data : HVal) : Except String HVal :=
  if f ≠ RType.stringT then .ok data
  else if t ≠ RType.durationT then .ok data
  else
    match data with
    | .str s =>
      match parseDur s with
      | some ns => .ok (.dur ns)
      | none => .error ("time: invalid duration " ++ s)
    | d => .ok d

/-! ## Merge algebra

Groundwork for the idempotence claim about `applyTo`: positional
characterizations of the key-wise and name-wise merges, preservation of
well-formedness, self-merge and idempotence laws, and the replay
theorem (re-applying a patch sequence is the identity on its own
result). -/

namespace Val

/-- `true` exactly on mappings. -/
def isMapB : Val → Bool
  | .vmap _ => true
  | _ => false

/-- `true` exactly on lists. -/
def isListB : Val → Bool
  | .vlist _ => true
  | _ => false

/-- `true` exactly on scalars (null, string, int). -/
def isScalarB : Val → Bool
  | .vnull | .vstr _ | .vint _ => true
  | _ => false

/-- The entries of a mapping (junk on other values). -/
def ents : Val → List (String × Val)
  | .vmap es => es
  | _ => []

/-- The elements of a list (junk on other values). -/
def elems : Val → List Val
  | .vlist es => es
  | _ => []

/-- Merge with an optional patch: absent patches leave the target
unchanged. -/
def oMerge (a : Val) : Option Val → Val
  | some p => mergeVal a p
  | none => a

/-- Fold a sequence of optional patches over a target. -/
def oFold (a : Val) (os : List (Option Val)) : Val := os.foldl oMerge a

/-- Fold a sequence of patches over a target (the repeated
strategic-merge step of `applyTo` over the live document). -/
def foldMerge (a : Val) (Q : List Val) : Val := Q.foldl mergeVal a

@[simp] theorem foldMerge_nil (a : Val) : foldMerge a [] = a := rfl

@[simp] theorem foldMerge_cons (a q : Val) (Q : List Val) :
    foldMerge a (q :: Q) = foldMerge (mergeVal a q) Q := rfl

theorem foldMerge_append (a : Val) (Q R : List Val) :
    foldMerge a (Q ++ R) = foldMerge (foldMerge a Q) R :=
  List.foldl_append ..

@[simp] theorem oFold_nil (a : Val) : oFold a [] = a := rfl

@[simp] theorem oFold_cons (a : Val) (o : Option Val) (os : List (Option Val)) :
    oFold a (o :: os) = oFold (oMerge a o) os := rfl

theorem oFold_eq_foldMerge (a : Val) (os : List (Option Val)) :
    oFold a os = foldMerge a (os.filterMap id) := by
  induction os generalizing a with
  | nil => rfl
  | cons o rest ih =>
    cases o with
    | none => simpa [oMerge] using ih a
    | some p => simpa [oMerge] using ih (mergeVal a p)

/-- A scalar patch replaces any target. -/
theorem mergeVal_scalar (t p : Val) (hp : isScalarB p = true) :
    mergeVal t p = p := by
  cases p <;> simp [isScalarB] at hp <;> cases t <;> simp [mergeVal]

/-- A map patch on a non-map target replaces it. -/
theorem mergeVal_map_of_not_map (t : Val) (p : List (String × Val))
    (ht : isMapB t = false) : mergeVal t (.vmap p) = .vmap p := by
  cases t <;> simp [isMapB] at ht ⊢ <;> simp [mergeVal]

/-- A list patch on a non-list target replaces it. -/
theorem mergeVal_list_of_not_list (t : Val) (p : List Val)
    (ht : isListB t = false) : mergeVal t (.vlist p) = .vlist p := by
  cases t <;> simp [isListB] at ht ⊢ <;> simp [mergeVal]

theorem mergeVal_map_map (t p : List (String × Val)) :
    mergeVal (.vmap t) (.vmap p) =
      .vmap (mergeInto t p ++ p.filter (fun e => (plookup t e.1).isNone)) := by
  simp [mergeVal]

theorem mergeVal_list_list (t p : List Val) :
    mergeVal (.vlist t) (.vlist p) =
      if nameListU t ∧ nameListU p then
        .vlist (mergeNL t p ++ p.filter (fun e => (findName t (getName e)).isNone))
      else .vlist p := by
  simp [mergeVal]

/-- Merging a map patch yields a map. -/
theorem isMapB_mergeVal_map (t : Val) (p : List (String × Val)) :
    isMapB (mergeVal t (.vmap p)) = true := by
  cases t <;> simp [mergeVal, isMapB]

/-- Merging a list patch into a list yields a list. -/
theorem isListB_mergeVal_list (t : Val) (p : List Val) (ht : isListB t = true) :
    isListB (mergeVal t (.vlist p)) = true := by
  cases t with
  | vlist es => rw [mergeVal_list_list]; split <;> simp [isListB]
  | vnull => simp [isListB] at ht
  | vstr s => simp [isListB] at ht
  | vint n => simp [isListB] at ht
  | vmap es => simp [isListB] at ht

/-- Positional form of the key-wise merge: a map over the target's
entries. -/
theorem mergeInto_eq_map (t p : List (String × Val)) :
    mergeInto t p = t.map (fun e => (e.1, oMerge e.2 (plookup p e.1))) := by
  induction t with
  | nil => simp
  | cons e rest ih =>
    obtain ⟨k, v⟩ := e
    cases h : plookup p k with
    | some pv => rw [mergeInto_cons_found v rest h]; simp [oMerge, h, ih]
    | none => rw [mergeInto_cons_none v rest h]; simp [oMerge, h, ih]

/-- Positional form of the name-wise merge: a map over the target's
elements. -/
theorem mergeNL_eq_map (t p : List Val) :
    mergeNL t p = t.map (fun e => oMerge e (findName p (getName e))) := by
  induction t with
  | nil => simp
  | cons e rest ih =>
    cases h : findName p (getName e) with
    | some pe => rw [mergeNL_cons_found rest h]; simp [oMerge, h, ih]
    | none => rw [mergeNL_cons_none rest h]; simp [oMerge, h, ih]

theorem map_eq_self_of {α : Type} (l : List α) (f : α → α)
    (h : ∀ x ∈ l, f x = x) : l.map f = l := by
  induction l with
  | nil => rfl
  | cons a rest ih => simp [h a (by simp), ih fun x hx => h x (by simp [hx])]

theorem eq_of_map_eq_self {α : Type} (l : List α) (f : α → α)
    (h : l.map f = l) : ∀ x ∈ l, f x = x := by
  induction l with
  | nil => simp
  | cons a rest ih =>
    simp only [List.map_cons, List.cons.injEq] at h
    intro x hx
    rcases List.mem_cons.1 hx with rfl | hx'
    · exact h.1
    · exact ih h.2 x hx'

theorem plookup_append (a b : List (String × Val)) (k : String) :
    plookup (a ++ b) k = (plookup a k).orElse (fun _ => plookup b k) := by
  induction a with
  | nil => simp [plookup]
  | cons e rest ih =>
    obtain ⟨k', v'⟩ := e
    by_cases h : k' = k <;> simp [plookup, h, ih]

theorem plookup_isSome_iff (l : List (String × Val)) (k : String) :
    (plookup l k).isSome = true ↔ k ∈ l.map Prod.fst := by
  induction l with
  | nil => simp [plookup]
  | cons e rest ih =>
    obtain ⟨k', v'⟩ := e
    by_cases h : k' = k
    · subst h; simp [plookup]
    · have h' : k ≠ k' := fun heq => h heq.symm
      simp [plookup, h, h', ih]

theorem plookup_eq_none_of_not_mem (l : List (String × Val)) (k : String)
    (h : k ∉ l.map Prod.fst) : plookup l k = none := by
  cases hl : plookup l k with
  | none => rfl
  | some v =>
    exact absurd ((plookup_isSome_iff l k).1 (by simp [hl])) h

theorem plookup_mem_of_nodup (l : List (String × Val)) (k : String) (v : Val)
    (hnd : (l.map Prod.fst).Nodup) (hmem : (k, v) ∈ l) :
    plookup l k = some v := by
  induction l with
  | nil => simp at hmem
  | cons e rest ih =>
    obtain ⟨k', v'⟩ := e
    simp only [List.map_cons, List.nodup_cons] at hnd
    rcases List.mem_cons.1 hmem with heq | hmem'
    · cases heq; simp [plookup]
    · have hk : k' ≠ k := by
        rintro rfl
        exact hnd.1 (by simpa using List.mem_map_of_mem Prod.fst hmem')
      simp [plookup, hk, ih hnd.2 hmem']

theorem plookup_wf {es : List (String × Val)} {k : String} {v : Val}
    (hwf : ∀ e ∈ es, wf e.2) (h : plookup es k = some v) : wf v := by
  induction es with
  | nil => simp [plookup] at h
  | cons e rest ih =>
    obtain ⟨k', v'⟩ := e
    simp only [plookup] at h
    split at h
    · cases h; exact hwf (k', v) (by simp)
    · exact ih (fun e he => hwf e (by simp [he])) h

theorem findName_isSome_iff (l : List Val) (n : Option Val) :
    (findName l n).isSome = true ↔ n ∈ l.map getName := by
  induction l with
  | nil => simp [findName]
  | cons e rest ih =>
    by_cases h : getName e = n
    · subst h; simp [findName]
    · have h' : n ≠ getName e := fun heq => h heq.symm
      simp [findName, h, h', ih]

theorem findName_eq_none_of_not_mem (l : List Val) (n : Option Val)
    (h : n ∉ l.map getName) : findName l n = none := by
  cases hl : findName l n with
  | none => rfl
  | some v => exact absurd ((findName_isSome_iff l n).1 (by simp [hl])) h

theorem getName_of_findName {l : List Val} {n : Option Val} {e : Val}
    (h : findName l n = some e) : getName e = n := by
  induction l with
  | nil => simp [findName] at h
  | cons a rest ih =>
    simp only [findName] at h
    split at h
    · cases h; assumption
    · exact ih h

theorem mem_of_findName {l : List Val} {n : Option Val} {e : Val}
    (h : findName l n = some e) : e ∈ l := by
  induction l with
  | nil => simp [findName] at h
  | cons a rest ih =>
    simp only [findName] at h
    split at h
    · cases h; simp
    · simp [ih h]

theorem findName_self_of_nodup (l : List Val) (e : Val)
    (hnd : (l.map getName).Nodup) (hmem : e ∈ l) :
    findName l (getName e) = some e := by
  induction l with
  | nil => simp at hmem
  | cons a rest ih =>
    simp only [List.map_cons, List.nodup_cons] at hnd
    rcases List.mem_cons.1 hmem with rfl | hmem'
    · simp [findName]
    · have hne : getName a ≠ getName e := by
        intro heq
        exact hnd.1 (heq ▸ List.mem_map_of_mem getName hmem')
      simp [findName, hne, ih hnd.2 hmem']

theorem findName_wf {l : List Val} {n : Option Val} {e : Val}
    (hwf : ∀ x ∈ l, wf x) (h : findName l n = some e) : wf e :=
  hwf e (mem_of_findName h)

theorem filter_nil_of {α : Type} (l : List α) (p : α → Bool)
    (h : ∀ a ∈ l, p a = false) : l.filter p = [] := by
  induction l with
  | nil => rfl
  | cons a rest ih =>
    simp [List.filter, h a (by simp), ih fun x hx => h x (by simp [hx])]

theorem plookup_mergeInto (t p : List (String × Val)) (k : String) :
    plookup (mergeInto t p) k =
      (plookup t k).map (fun v => oMerge v (plookup p k)) := by
  induction t with
  | nil => simp [plookup]
  | cons e rest ih =>
    obtain ⟨k', v'⟩ := e
    by_cases hk : k' = k
    · subst hk
      cases h : plookup p k' with
      | some pv =>
        rw [mergeInto_cons_found _ _ h]
        simp [plookup, h, oMerge]
      | none =>
        rw [mergeInto_cons_none _ _ h]
        simp [plookup, h, oMerge]
    · cases h : plookup p k' with
      | some pv =>
        rw [mergeInto_cons_found _ _ h]
        simp [plookup, hk, ih]
      | none =>
        rw [mergeInto_cons_none _ _ h]
        simp [plookup, hk, ih]

theorem keys_mergeInto (t p : List (String × Val)) :
    (mergeInto t p).map Prod.fst = t.map Prod.fst := by
  rw [mergeInto_eq_map, List.map_map]
  rfl

theorem wf_vmap_iff (es : List (String × Val)) :
    wf (.vmap es) ↔ (es.map Prod.fst).Nodup ∧ ∀ e ∈ es, wf e.2 := by
  rw [wf]

theorem wf_vlist_iff (es : List Val) :
    wf (.vlist es) ↔ ∀ e ∈ es, wf e := by
  rw [wf]

@[simp] theorem wf_vnull : wf .vnull := by rw [wf]; trivial
@[simp] theorem wf_vstr (s : String) : wf (.vstr s) := by rw [wf]; trivial
@[simp] theorem wf_vint (n : Int) : wf (.vint n) := by rw [wf]; trivial

/-- Well-formedness is preserved by the structural merge. -/
theorem wf_mergeVal : ∀ (t p : Val), wf t → wf p → wf (mergeVal t p)
  | .vmap t, .vmap p, hwt, hwp => by
    obtain ⟨hndt, hvt⟩ := (wf_vmap_iff t).1 hwt
    obtain ⟨hndp, hvp⟩ := (wf_vmap_iff p).1 hwp
    rw [mergeVal_map_map, wf_vmap_iff]
    constructor
    · rw [List.map_append, keys_mergeInto, List.nodup_append]
      refine ⟨hndt, ?_, ?_⟩
      · exact hndp.sublist ((List.filter_sublist p).map Prod.fst)
      · intro k hkt hkf
        obtain ⟨e, hef, rfl⟩ := List.mem_map.1 hkf
        have := (List.mem_filter.1 hef).2
        rw [Option.isNone_iff_eq_none] at this
        have hsome := (plookup_isSome_iff t e.1).2 hkt
        simp [this] at hsome
    · intro e he
      rcases List.mem_append.1 he with hin | hfil
      · rw [mergeInto_eq_map] at hin
        obtain ⟨x, hx, rfl⟩ := List.mem_map.1 hin
        cases h : plookup p x.1 with
        | some pv =>
          simp only [oMerge, h]
          exact wf_mergeVal x.2 pv (hvt x hx) (plookup_wf hvp h)
        | none => simpa [oMerge, h] using hvt x hx
      · exact hvp e (List.mem_of_mem_filter hfil)
  | .vlist t, .vlist p, hwt, hwp => by
    have hvt := (wf_vlist_iff t).1 hwt
    have hvp := (wf_vlist_iff p).1 hwp
    rw [mergeVal_list_list]
    split
    · rw [wf_vlist_iff]
      intro e he
      rcases List.mem_append.1 he with hin | hfil
      · rw [mergeNL_eq_map] at hin
        obtain ⟨x, hx, rfl⟩ := List.mem_map.1 hin
        cases h : findName p (getName x) with
        | some pe =>
          simp only [oMerge, h]
          exact wf_mergeVal x pe (hvt x hx) (findName_wf hvp h)
        | none => simpa [oMerge, h] using hvt x hx
      · exact hvp e (List.mem_of_mem_filter hfil)
    · exact hwp
  | .vnull, p, _, hwp => by
    cases p <;> simpa [mergeVal] using hwp
  | .vstr s, p, _, hwp => by
    cases p <;> simpa [mergeVal] using hwp
  | .vint n, p, _, hwp => by
    cases p <;> simpa [mergeVal] using hwp
  | .vmap t, .vnull, _, hwp => by simpa [mergeVal] using hwp
  | .vmap t, .vstr _, _, hwp => by simpa [mergeVal] using hwp
  | .vmap t, .vint _, _, hwp => by simpa [mergeVal] using hwp
  | .vmap t, .vlist p, _, hwp => by simpa [mergeVal] using hwp
  | .vlist t, .vnull, _, hwp => by simpa [mergeVal] using hwp
  | .vlist t, .vstr _, _, hwp => by simpa [mergeVal] using hwp
  | .vlist t, .vint _, _, hwp => by simpa [mergeVal] using hwp
  | .vlist t, .vmap p, _, hwp => by simpa [mergeVal] using hwp
termination_by t p => sizeOf t + sizeOf p
decreasing_by
  · have h1 := List.sizeOf_lt_of_mem hx
    have h2 := sizeOf_plookup h
    cases x; simp at h1 ⊢; omega
  · have h1 := List.sizeOf_lt_of_mem hx
    have h2 := sizeOf_findName h
    simp at h1 h2 ⊢; omega

/-- Merging a well-formed value into itself is the identity. -/
theorem mergeVal_self : ∀ (v : Val), wf v → mergeVal v v = v
  | .vnull, _ => mergeVal_scalar _ _ rfl
  | .vstr _, _ => mergeVal_scalar _ _ rfl
  | .vint _, _ => mergeVal_scalar _ _ rfl
  | .vmap es, hwf => by
    obtain ⟨hnd, hvals⟩ := (wf_vmap_iff es).1 hwf
    rw [mergeVal_map_map]
    have hfilter : es.filter (fun e => (plookup es e.1).isNone) = [] := by
      apply filter_nil_of
      intro a ha
      have hs : (plookup es a.1).isSome = true :=
        (plookup_isSome_iff es a.1).2 (List.mem_map_of_mem Prod.fst ha)
      cases h : plookup es a.1 with
      | none => rw [h] at hs; simp at hs
      | some v => simp
    have hinto : mergeInto es es = es := by
      rw [mergeInto_eq_map]
      apply map_eq_self_of
      intro x hx
      have hlk : plookup es x.1 = some x.2 :=
        plookup_mem_of_nodup es x.1 x.2 hnd (by simpa using hx)
      simp [oMerge, hlk, mergeVal_self x.2 (hvals x hx)]
    simp [hinto, hfilter]
  | .vlist es, hwf => by
    have hvals := (wf_vlist_iff es).1 hwf
    rw [mergeVal_list_list]
    split
    · rename_i hguard
      obtain ⟨hsome, hnd⟩ := hguard.1
      have hfilter : es.filter (fun e => (findName es (getName e)).isNone) = [] := by
        apply filter_nil_of
        intro a ha
        simp [findName_self_of_nodup es a hnd ha]
      have hNL : mergeNL es es = es := by
        rw [mergeNL_eq_map]
        apply map_eq_self_of
        intro x hx
        rw [findName_self_of_nodup es x hnd hx]
        simp [oMerge, mergeVal_self x (hvals x hx)]
      simp [hNL, hfilter]
    · rfl
termination_by v => sizeOf v
decreasing_by
  · have h1 := List.sizeOf_lt_of_mem hx
    cases x; simp at h1 ⊢; omega
  · have h1 := List.sizeOf_lt_of_mem hx
    simp at h1 ⊢; omega

theorem isMapB_of_getName_isSome {e : Val} (h : (getName e).isSome = true) :
    ∃ m, e = .vmap m := by
  cases e <;> simp [getName] at h ⊢

/-- Merging a patch element with the same `name` leaves the `name`
field unchanged (well-formedness makes the merged name value collapse
to itself). -/
theorem getName_mergeVal_stable (e pe : Val) (hwfe : wf e)
    (hse : (getName e).isSome = true) (hspe : getName pe = getName e) :
    getName (mergeVal e pe) = getName e := by
  obtain ⟨m, rfl⟩ := isMapB_of_getName_isSome hse
  have hspe' : (getName pe).isSome = true := by rw [hspe]; exact hse
  obtain ⟨mp, rfl⟩ := isMapB_of_getName_isSome hspe'
  obtain ⟨n, hn⟩ := Option.isSome_iff_exists.1 hse
  simp only [getName] at hn hspe ⊢
  have hwfn : wf n := plookup_wf ((wf_vmap_iff m).1 hwfe).2 hn
  rw [mergeVal_map_map]
  show plookup _ "name" = _
  rw [plookup_append, plookup_mergeInto, hn, hspe, hn]
  simp [oMerge, mergeVal_self n hwfn]

theorem namesOf_mergeNL (tl pl : List Val)
    (hwft : ∀ e ∈ tl, wf e) (hst : ∀ e ∈ tl, (getName e).isSome = true) :
    (mergeNL tl pl).map getName = tl.map getName := by
  rw [mergeNL_eq_map, List.map_map]
  apply List.map_congr_left
  intro e he
  show getName (oMerge e (findName pl (getName e))) = getName e
  cases h : findName pl (getName e) with
  | none => simp [oMerge]
  | some pe =>
    simp only [oMerge]
    exact getName_mergeVal_stable e pe (hwft e he) (hst e he)
      (getName_of_findName h)

/-- The name-wise merge result of two selector-convention lists is
again a selector-convention list, with the target's names followed by
the appended patch names. -/
theorem nameListU_merge_result (tl pl : List Val)
    (hNLt : nameListU tl) (hNLp : nameListU pl) (hwft : ∀ e ∈ tl, wf e) :
    (mergeNL tl pl ++
        pl.filter (fun e => (findName tl (getName e)).isNone)).map getName =
      tl.map getName ++
        (pl.filter (fun e => (findName tl (getName e)).isNone)).map getName ∧
    nameListU (mergeNL tl pl ++
        pl.filter (fun e => (findName tl (getName e)).isNone)) := by
  have hnames := namesOf_mergeNL tl pl hwft hNLt.1
  refine ⟨by rw [List.map_append, hnames], ?_, ?_⟩
  · intro e he
    rcases List.mem_append.1 he with hin | hfil
    · rw [mergeNL_eq_map] at hin
      obtain ⟨x, hx, rfl⟩ := List.mem_map.1 hin
      cases h : findName pl (getName x) with
      | none => simpa [oMerge] using hNLt.1 x hx
      | some pe =>
        simp only [oMerge]
        rw [getName_mergeVal_stable x pe (hwft x hx) (hNLt.1 x hx)
          (getName_of_findName h)]
        exact hNLt.1 x hx
    · exact hNLp.1 e (List.mem_of_mem_filter hfil)
  · rw [List.map_append, hnames, List.nodup_append]
    refine ⟨hNLt.2, ?_, ?_⟩
    · exact hNLp.2.sublist ((List.filter_sublist pl).map getName)
    · intro n hnt hnf
      obtain ⟨e, hef, rfl⟩ := List.mem_map.1 hnf
      have hcond := (List.mem_filter.1 hef).2
      rw [Option.isNone_iff_eq_none] at hcond
      have := (findName_isSome_iff tl (getName e)).2 hnt
      simp [hcond] at this

/-- Idempotence of the structural merge: merging the same patch twice
equals merging it once. -/
theorem mergeVal_idem : ∀ (t p : Val), wf t → wf p →
    mergeVal (mergeVal t p) p = mergeVal t p
  | .vmap t, .vmap p, hwt, hwp => by
    obtain ⟨hndt, hvt⟩ := (wf_vmap_iff t).1 hwt
    obtain ⟨hndp, hvp⟩ := (wf_vmap_iff p).1 hwp
    rw [mergeVal_map_map]
    set np := p.filter (fun e => (plookup t e.1).isNone) with hnp
    rw [mergeVal_map_map]
    have hsome : ∀ e ∈ p, (plookup (mergeInto t p ++ np) e.1).isSome = true := by
      intro e he
      rw [plookup_append, plookup_mergeInto]
      cases h : plookup t e.1 with
      | some v => simp [oMerge]
      | none =>
        have : e ∈ np := by
          rw [hnp, List.mem_filter]
          exact ⟨he, by simp [h]⟩
        have := (plookup_isSome_iff np e.1).2 (List.mem_map_of_mem Prod.fst this)
        simpa [h] using this
    have hfil2 : p.filter (fun e => (plookup (mergeInto t p ++ np) e.1).isNone) = [] := by
      apply filter_nil_of
      intro a ha
      have := hsome a ha
      cases h : plookup (mergeInto t p ++ np) a.1 with
      | none => rw [h] at this; simp at this
      | some v => simp
    have hinto2 : mergeInto (mergeInto t p ++ np) p = mergeInto t p ++ np := by
      rw [mergeInto_eq_map]
      apply map_eq_self_of
      intro x hx
      rcases List.mem_append.1 hx with hin | hfil
      · rw [mergeInto_eq_map] at hin
        obtain ⟨y, hy, rfl⟩ := List.mem_map.1 hin
        cases h : plookup p y.1 with
        | none => simp [oMerge, h]
        | some pv =>
          simp only [oMerge, h]
          have := mergeVal_idem y.2 pv (hvt y hy) (plookup_wf hvp h)
          simp [this]
      · have hxp : x ∈ p := List.mem_of_mem_filter hfil
        have hlk : plookup p x.1 = some x.2 :=
          plookup_mem_of_nodup p x.1 x.2 hndp (by simpa using hxp)
        simp [oMerge, hlk, mergeVal_self x.2 (hvp x hxp)]
    rw [hinto2, hfil2, List.append_nil]
  | .vlist t, .vlist p, hwt, hwp => by
    have hvt := (wf_vlist_iff t).1 hwt
    have hvp := (wf_vlist_iff p).1 hwp
    rw [mergeVal_list_list]
    split
    · rename_i hguard
      obtain ⟨hNLt, hNLp⟩ := hguard
      set np := p.filter (fun e => (findName t (getName e)).isNone) with hnp
      obtain ⟨hnames, hNLR⟩ := nameListU_merge_result t p hNLt hNLp hvt
      rw [mergeVal_list_list, if_pos ⟨hNLR, hNLp⟩]
      have hsomeR : ∀ e ∈ p,
          (findName (mergeNL t p ++ np) (getName e)).isSome = true := by
        intro e he
        rw [findName_isSome_iff, List.map_append, namesOf_mergeNL t p hvt hNLt.1,
          List.mem_append]
        cases h : findName t (getName e) with
        | some x =>
          left
          have := getName_of_findName h
          rw [← this]
          exact List.mem_map_of_mem getName (mem_of_findName h)
        | none =>
          right
          have : e ∈ np := by
            rw [hnp, List.mem_filter]
            exact ⟨he, by simp [h]⟩
          exact List.mem_map_of_mem getName this
      have hfil2 : p.filter
          (fun e => (findName (mergeNL t p ++ np) (getName e)).isNone) = [] := by
        apply filter_nil_of
        intro a ha
        have := hsomeR a ha
        cases h : findName (mergeNL t p ++ np) (getName a) with
        | none => rw [h] at this; simp at this
        | some v => simp
      have hNL2 : mergeNL (mergeNL t p ++ np) p = mergeNL t p ++ np := by
        rw [mergeNL_eq_map]
        apply map_eq_self_of
        intro x hx
        rcases List.mem_append.1 hx with hin | hfil
        · rw [mergeNL_eq_map] at hin
          obtain ⟨y, hy, rfl⟩ := List.mem_map.1 hin
          cases h : findName p (getName y) with
          | none => simp [oMerge, h, getName_mergeVal_stable]
          | some pe =>
            have hgn : getName (oMerge y (some pe)) = getName y := by
              simp only [oMerge]
              exact getName_mergeVal_stable y pe (hvt y hy) (hNLt.1 y hy)
                (getName_of_findName h)
            rw [hgn, h]
            simp only [oMerge]
            exact mergeVal_idem y pe (hvt y hy) (findName_wf hvp h)
        · have hxp : x ∈ p := List.mem_of_mem_filter hfil
          rw [findName_self_of_nodup p x hNLp.2 hxp]
          simp [oMerge, mergeVal_self x (hvp x hxp)]
      rw [hNL2, hfil2, List.append_nil]
    · rename_i hguard
      rw [mergeVal_list_list]
      by_cases hp : nameListU p
      · rw [if_pos ⟨hp, hp⟩]
        have hfil : p.filter (fun e => (findName p (getName e)).isNone) = [] := by
          apply filter_nil_of
          intro a ha
          simp [findName_self_of_nodup p a hp.2 ha]
        have hNL : mergeNL p p = p := by
          rw [mergeNL_eq_map]
          apply map_eq_self_of
          intro x hx
          rw [findName_self_of_nodup p x hp.2 hx]
          simp [oMerge, mergeVal_self x (hvp x hx)]
        rw [hNL, hfil, List.append_nil]
      · rw [if_neg (fun hc => hp hc.2)]
  | .vnull, p, _, hwp => by
    rw [show mergeVal Val.vnull p = p from by cases p <;> simp [mergeVal]]
    exact mergeVal_self p hwp
  | .vstr s, p, _, hwp => by
    rw [show mergeVal (Val.vstr s) p = p from by cases p <;> simp [mergeVal]]
    exact mergeVal_self p hwp
  | .vint n, p, _, hwp => by
    rw [show mergeVal (Val.vint n) p = p from by cases p <;> simp [mergeVal]]
    exact mergeVal_self p hwp
  | .vmap t, .vnull, _, _ => by simp [mergeVal]
  | .vmap t, .vstr _, _, _ => by simp [mergeVal]
  | .vmap t, .vint _, _, _ => by simp [mergeVal]
  | .vmap t, .vlist p, _, hwp => by
    rw [show mergeVal (Val.vmap t) (Val.vlist p) = Val.vlist p from by simp [mergeVal]]
    exact mergeVal_self _ hwp
  | .vlist t, .vnull, _, _ => by simp [mergeVal]
  | .vlist t, .vstr _, _, _ => by simp [mergeVal]
  | .vlist t, .vint _, _, _ => by simp [mergeVal]
  | .vlist t, .vmap p, _, hwp => by
    rw [show mergeVal (Val.vlist t) (Val.vmap p) = Val.vmap p from by simp [mergeVal]]
    exact mergeVal_self _ hwp
termination_by t p => sizeOf t + sizeOf p
decreasing_by
  · have h1 := List.sizeOf_lt_of_mem hy
    have h2 := sizeOf_plookup h
    cases y; simp at h1 ⊢; omega
  · have h1 := List.sizeOf_lt_of_mem hy
    have h2 := sizeOf_findName h
    simp at h1 h2 ⊢; omega

theorem wf_foldMerge (Q : List Val) (x : Val) (hwx : wf x)
    (hwQ : ∀ q ∈ Q, wf q) : wf (foldMerge x Q) := by
  induction Q generalizing x with
  | nil => exact hwx
  | cons q rest ih =>
    rw [foldMerge_cons]
    exact ih (mergeVal x q) (wf_mergeVal x q hwx (hwQ q (by simp)))
      fun p hp => hwQ p (by simp [hp])

theorem isMapB_exclusive (v : Val) (h : isMapB v = true) : isListB v = false := by
  cases v <;> simp [isMapB, isListB] at h ⊢

theorem isListB_exclusive (v : Val) (h : isListB v = true) : isMapB v = false := by
  cases v <;> simp [isMapB, isListB] at h ⊢

theorem isMapB_foldMerge (Q : List Val) (x : Val) (hx : isMapB x = true)
    (hQ : ∀ q ∈ Q, isMapB q = true) : isMapB (foldMerge x Q) = true := by
  induction Q generalizing x with
  | nil => exact hx
  | cons q rest ih =>
    obtain ⟨p, rfl⟩ : ∃ p, q = Val.vmap p := by
      have := hQ q (by simp); cases q <;> simp [isMapB] at this ⊢
    exact ih (mergeVal x (.vmap p)) (isMapB_mergeVal_map x p)
      fun r hr => hQ r (by simp [hr])

theorem isListB_foldMerge (Q : List Val) (x : Val) (hx : isListB x = true)
    (hQ : ∀ q ∈ Q, isListB q = true) : isListB (foldMerge x Q) = true := by
  induction Q generalizing x with
  | nil => exact hx
  | cons q rest ih =>
    obtain ⟨p, rfl⟩ : ∃ p, q = Val.vlist p := by
      have := hQ q (by simp); cases q <;> simp [isListB] at this ⊢
    exact ih (mergeVal x (.vlist p)) (isListB_mergeVal_list x p hx)
      fun r hr => hQ r (by simp [hr])

/-- Two parallel folds from structurally compatible states either
collapse to the same result, or the whole patch sequence is
kind-homogeneous and matches the states' kind. -/
theorem foldMerge_dichotomy : ∀ (Q : List Val) (a b : Val),
    (a = b ∨ (isMapB a = true ∧ isMapB b = true) ∨
      (isListB a = true ∧ isListB b = true)) →
    foldMerge a Q = foldMerge b Q ∨
    ((∀ q ∈ Q, isMapB q = true) ∧ isMapB a = true ∧ isMapB b = true) ∨
    ((∀ q ∈ Q, isListB q = true) ∧ isListB a = true ∧ isListB b = true) := by
  intro Q
  induction Q with
  | nil =>
    intro a b h
    rcases h with rfl | hm | hl
    · exact Or.inl rfl
    · exact Or.inr (Or.inl ⟨by simp, hm⟩)
    · exact Or.inr (Or.inr ⟨by simp, hl⟩)
  | cons q rest ih =>
    intro a b h
    rcases h with rfl | ⟨hma, hmb⟩ | ⟨hla, hlb⟩
    · exact Or.inl rfl
    · obtain ⟨ta, rfl⟩ : ∃ t, a = Val.vmap t := by
        cases a <;> simp [isMapB] at hma ⊢
      obtain ⟨tb, rfl⟩ : ∃ t, b = Val.vmap t := by
        cases b <;> simp [isMapB] at hmb ⊢
      cases q with
      | vmap qp =>
        rcases ih (mergeVal (.vmap ta) (.vmap qp)) (mergeVal (.vmap tb) (.vmap qp))
            (Or.inr (Or.inl ⟨isMapB_mergeVal_map _ _, isMapB_mergeVal_map _ _⟩)) with
          heq | hrest | hrest
        · exact Or.inl (by simpa using heq)
        · exact Or.inr (Or.inl ⟨by
            intro x hx
            rcases List.mem_cons.1 hx with rfl | hx'
            · simp [isMapB]
            · exact hrest.1 x hx', by simp [isMapB], by simp [isMapB]⟩)
        · have := isMapB_mergeVal_map (Val.vmap ta) qp
          rw [isMapB_exclusive _ this] at hrest
          exact absurd hrest.2.1 (by simp)
      | vlist qp =>
        refine Or.inl ?_
        simp only [foldMerge_cons]
        rw [show mergeVal (Val.vmap ta) (Val.vlist qp) = Val.vlist qp from by
          simp [mergeVal]]
        rw [show mergeVal (Val.vmap tb) (Val.vlist qp) = Val.vlist qp from by
          simp [mergeVal]]
      | vnull =>
        refine Or.inl ?_
        simp only [foldMerge_cons]
        simp [mergeVal]
      | vstr s =>
        refine Or.inl ?_
        simp only [foldMerge_cons]
        simp [mergeVal]
      | vint n =>
        refine Or.inl ?_
        simp only [foldMerge_cons]
        simp [mergeVal]
    · obtain ⟨ta, rfl⟩ : ∃ t, a = Val.vlist t := by
        cases a <;> simp [isListB] at hla ⊢
      obtain ⟨tb, rfl⟩ : ∃ t, b = Val.vlist t := by
        cases b <;> simp [isListB] at hlb ⊢
      cases q with
      | vlist qp =>
        rcases ih (mergeVal (.vlist ta) (.vlist qp)) (mergeVal (.vlist tb) (.vlist qp))
            (Or.inr (Or.inr ⟨isListB_mergeVal_list _ _ rfl, isListB_mergeVal_list _ _ rfl⟩)) with
          heq | hrest | hrest
        · exact Or.inl (by simpa using heq)
        · have := isListB_mergeVal_list (Val.vlist ta) qp rfl
          rw [isListB_exclusive _ this] at hrest
          exact absurd hrest.2.1 (by simp)
        · exact Or.inr (Or.inr ⟨by
            intro x hx
            rcases List.mem_cons.1 hx with rfl | hx'
            · simp [isListB]
            · exact hrest.1 x hx', by simp [isListB], by simp [isListB]⟩)
      | vmap qp =>
        refine Or.inl ?_
        simp only [foldMerge_cons]
        rw [show mergeVal (Val.vlist ta) (Val.vmap qp) = Val.vmap qp from by
          simp [mergeVal]]
        rw [show mergeVal (Val.vlist tb) (Val.vmap qp) = Val.vmap qp from by
          simp [mergeVal]]
      | vnull =>
        refine Or.inl ?_
        simp only [foldMerge_cons]
        simp [mergeVal]
      | vstr s =>
        refine Or.inl ?_
        simp only [foldMerge_cons]
        simp [mergeVal]
      | vint n =>
        refine Or.inl ?_
        simp only [foldMerge_cons]
        simp [mergeVal]

theorem of_filter_nil {α : Type} {l : List α} {p : α → Bool}
    (h : l.filter p = []) : ∀ a ∈ l, p a = false := by
  induction l with
  | nil => simp
  | cons a rest ih =>
    rw [List.filter_cons] at h
    split at h
    · exact absurd h (by simp)
    · rename_i hpa
      intro x hx
      rcases List.mem_cons.1 hx with rfl | hx'
      · simpa using hpa
      · exact ih h x hx'

theorem mergeInto_length (t p : List (String × Val)) :
    (mergeInto t p).length = t.length := by
  rw [mergeInto_eq_map]; simp

theorem foldMerge_map_exists : ∀ (Q : List (List (String × Val)))
    (s : List (String × Val)),
    ∃ z, foldMerge (.vmap s) (Q.map .vmap) = .vmap z ∧ s.length ≤ z.length := by
  intro Q
  induction Q with
  | nil => exact fun s => ⟨s, rfl, le_refl _⟩
  | cons q rest ih =>
    intro s
    rw [List.map_cons, foldMerge_cons, mergeVal_map_map]
    obtain ⟨z, hz, hlen⟩ := ih (mergeInto s q ++ q.filter (fun e => (plookup s e.1).isNone))
    refine ⟨z, hz, le_trans ?_ hlen⟩
    rw [List.length_append, mergeInto_length]
    omega

theorem map_fold_nogrow : ∀ (Q : List (List (String × Val)))
    (s z : List (String × Val)),
    foldMerge (.vmap s) (Q.map .vmap) = .vmap z → z.length = s.length →
    ∀ q ∈ Q, ∀ e ∈ q, e.1 ∈ s.map Prod.fst := by
  intro Q
  induction Q with
  | nil => intro s z _ _ q hq; simp at hq
  | cons q rest ih =>
    intro s z hfold hlen q' hq'
    rw [List.map_cons, foldMerge_cons, mergeVal_map_map] at hfold
    set np := q.filter (fun e => (plookup s e.1).isNone) with hnp
    obtain ⟨z', hz', hlen'⟩ := foldMerge_map_exists rest (mergeInto s q ++ np)
    rw [hfold] at hz'
    have hzz : z = z' := by injection hz'
    rw [List.length_append, mergeInto_length] at hlen'
    have hnp0 : np = [] := by
      have hlz : z'.length = s.length := by rw [← hzz, hlen]
      have : np.length = 0 := by omega
      exact List.length_eq_zero.1 this
    have hqkeys : ∀ e ∈ q, e.1 ∈ s.map Prod.fst := by
      intro e he
      have := of_filter_nil (hnp ▸ hnp0) e he
      cases h : plookup s e.1 with
      | none => rw [h] at this; simp at this
      | some v => exact (plookup_isSome_iff s e.1).1 (by simp [h])
    rcases List.mem_cons.1 hq' with rfl | hmem
    · exact hqkeys
    · rw [hnp0, List.append_nil] at hfold
      have := ih (mergeInto s q) z hfold (by rw [hlen, mergeInto_length])
      intro e he
      have hkey := this q' hmem e he
      rwa [keys_mergeInto] at hkey

theorem mapfold_positional : ∀ (Q : List (List (String × Val)))
    (t : List (String × Val)),
    (∀ q ∈ Q, ∀ e ∈ q, e.1 ∈ t.map Prod.fst) →
    foldMerge (.vmap t) (Q.map .vmap) =
      .vmap (t.map fun e => (e.1, oFold e.2 (Q.map fun q => plookup q e.1))) := by
  intro Q
  induction Q with
  | nil =>
    intro t _
    have hid : (t.map fun e => (e.1, e.2)) = t := map_eq_self_of t _ fun x _ => rfl
    simp only [List.map_nil, foldMerge_nil, oFold_nil, hid]
  | cons q rest ih =>
    intro t hkeys
    rw [List.map_cons, foldMerge_cons, mergeVal_map_map]
    have hnp : q.filter (fun e => (plookup t e.1).isNone) = [] := by
      apply filter_nil_of
      intro a ha
      have := (plookup_isSome_iff t a.1).2 (hkeys q (by simp) a ha)
      cases h : plookup t a.1 with
      | none => rw [h] at this; simp at this
      | some v => simp
    rw [hnp, List.append_nil, mergeInto_eq_map]
    set t' := t.map fun e => (e.1, oMerge e.2 (plookup q e.1)) with ht'
    have hkeys' : t'.map Prod.fst = t.map Prod.fst := by
      rw [ht', List.map_map]; rfl
    have hrest : ∀ p ∈ rest, ∀ e ∈ p, e.1 ∈ t'.map Prod.fst := by
      intro p hp e he
      rw [hkeys']
      exact hkeys p (by simp [hp]) e he
    rw [ih t' hrest, ht', List.map_map]
    congr 1

theorem map_fold_pointwise_sat (Q : List (List (String × Val)))
    (t : List (String × Val))
    (hkeys : ∀ q ∈ Q, ∀ e ∈ q, e.1 ∈ t.map Prod.fst)
    (hsat : foldMerge (.vmap t) (Q.map .vmap) = .vmap t) :
    ∀ e ∈ t, oFold e.2 (Q.map fun q => plookup q e.1) = e.2 := by
  have hpos := mapfold_positional Q t hkeys
  rw [hsat] at hpos
  have : t.map (fun e => (e.1, oFold e.2 (Q.map fun q => plookup q e.1))) = t := by
    injection hpos.symm
  intro e he
  have := eq_of_map_eq_self t _ this e he
  exact congrArg Prod.snd this

theorem mergeNL_length (t p : List Val) : (mergeNL t p).length = t.length := by
  rw [mergeNL_eq_map]; simp

theorem mergeVal_list_list_pos (t p : List Val)
    (ht : nameListU t) (hp : nameListU p) :
    mergeVal (.vlist t) (.vlist p) =
      .vlist (mergeNL t p ++ p.filter (fun e => (findName t (getName e)).isNone)) := by
  rw [mergeVal_list_list, if_pos ⟨ht, hp⟩]

theorem nl_fold_exists : ∀ (Q : List (List Val)) (s : List Val),
    (∀ q ∈ Q, nameListU q) → (∀ q ∈ Q, wf (.vlist q)) →
    nameListU s → wf (.vlist s) →
    ∃ z, foldMerge (.vlist s) (Q.map .vlist) = .vlist z ∧ nameListU z ∧
      wf (.vlist z) ∧ s.length ≤ z.length := by
  intro Q
  induction Q with
  | nil =>
    intro s _ _ hNs hws
    exact ⟨s, rfl, hNs, hws, le_refl _⟩
  | cons q rest ih =>
    intro s hNQ hwQ hNs hws
    have hNq := hNQ q (by simp)
    have hwq := hwQ q (by simp)
    rw [List.map_cons, foldMerge_cons, mergeVal_list_list_pos s q hNs hNq]
    set R := mergeNL s q ++ q.filter (fun e => (findName s (getName e)).isNone)
      with hR
    have hNR : nameListU R :=
      (nameListU_merge_result s q hNs hNq ((wf_vlist_iff s).1 hws)).2
    have hwR : wf (.vlist R) := by
      rw [← mergeVal_list_list_pos s q hNs hNq]
      exact wf_mergeVal _ _ hws hwq
    obtain ⟨z, hz, hNz, hwz, hlen⟩ := ih R
      (fun p hp => hNQ p (by simp [hp])) (fun p hp => hwQ p (by simp [hp])) hNR hwR
    refine ⟨z, hz, hNz, hwz, le_trans ?_ hlen⟩
    rw [hR, List.length_append, mergeNL_length]
    omega

theorem nl_fold_nogrow : ∀ (Q : List (List Val)) (s z : List Val),
    (∀ q ∈ Q, nameListU q) → (∀ q ∈ Q, wf (.vlist q)) →
    nameListU s → wf (.vlist s) →
    foldMerge (.vlist s) (Q.map .vlist) = .vlist z → z.length = s.length →
    ∀ q ∈ Q, ∀ e ∈ q, getName e ∈ s.map getName := by
  intro Q
  induction Q with
  | nil => intro s z _ _ _ _ _ _ q hq; simp at hq
  | cons q rest ih =>
    intro s z hNQ hwQ hNs hws hfold hlen q' hq'
    have hNq := hNQ q (by simp)
    have hwq := hwQ q (by simp)
    rw [List.map_cons, foldMerge_cons, mergeVal_list_list_pos s q hNs hNq] at hfold
    set ap := q.filter (fun e => (findName s (getName e)).isNone) with hap
    have hNR : nameListU (mergeNL s q ++ ap) :=
      (nameListU_merge_result s q hNs hNq ((wf_vlist_iff s).1 hws)).2
    have hwR : wf (.vlist (mergeNL s q ++ ap)) := by
      rw [hap, ← mergeVal_list_list_pos s q hNs hNq]
      exact wf_mergeVal _ _ hws hwq
    obtain ⟨z', hz', _, _, hlen'⟩ := nl_fold_exists rest (mergeNL s q ++ ap)
      (fun p hp => hNQ p (by simp [hp])) (fun p hp => hwQ p (by simp [hp])) hNR hwR
    rw [hfold] at hz'
    have hzz : z = z' := by injection hz'
    rw [List.length_append, mergeNL_length] at hlen'
    have hap0 : ap = [] := by
      have hlz : z'.length = s.length := by rw [← hzz, hlen]
      have : ap.length = 0 := by omega
      exact List.length_eq_zero.1 this
    have hqnames : ∀ e ∈ q, getName e ∈ s.map getName := by
      intro e he
      have := of_filter_nil (hap ▸ hap0) e he
      cases h : findName s (getName e) with
      | none => rw [h] at this; simp at this
      | some v => exact (findName_isSome_iff s (getName e)).1 (by simp [h])
    rcases List.mem_cons.1 hq' with rfl | hmem
    · exact hqnames
    · rw [hap0, List.append_nil] at hfold hNR hwR
      have hnames := namesOf_mergeNL s q ((wf_vlist_iff s).1 hws) hNs.1
      have := ih (mergeNL s q) z
        (fun p hp => hNQ p (by simp [hp])) (fun p hp => hwQ p (by simp [hp]))
        hNR hwR hfold (by rw [hlen, mergeNL_length])
      intro e he
      have hkey := this q' hmem e he
      rwa [hnames] at hkey

theorem nlfold_positional : ∀ (Q : List (List Val)) (t : List Val),
    (∀ q ∈ Q, nameListU q) → (∀ q ∈ Q, wf (.vlist q)) →
    nameListU t → wf (.vlist t) →
    (∀ q ∈ Q, ∀ e ∈ q, getName e ∈ t.map getName) →
    foldMerge (.vlist t) (Q.map .vlist) =
      .vlist (t.map fun e => oFold e (Q.map fun q => findName q (getName e))) := by
  intro Q
  induction Q with
  | nil =>
    intro t _ _ _ _ _
    have hid : (t.map fun e => e) = t := map_eq_self_of t _ fun x _ => rfl
    simp only [List.map_nil, foldMerge_nil, oFold_nil, hid]
  | cons q rest ih =>
    intro t hNQ hwQ hNt hwt hnames
    have hNq := hNQ q (by simp)
    have hwq := hwQ q (by simp)
    rw [List.map_cons, foldMerge_cons, mergeVal_list_list_pos t q hNt hNq]
    have hap : q.filter (fun e => (findName t (getName e)).isNone) = [] := by
      apply filter_nil_of
      intro a ha
      have := (findName_isSome_iff t (getName a)).2 (hnames q (by simp) a ha)
      cases h : findName t (getName a) with
      | none => rw [h] at this; simp at this
      | some v => simp
    rw [hap, List.append_nil, mergeNL_eq_map]
    set t' := t.map fun e => oMerge e (findName q (getName e)) with ht'
    have hstable : ∀ e ∈ t, getName (oMerge e (findName q (getName e))) = getName e := by
      intro e he
      cases h : findName q (getName e) with
      | none => simp [oMerge]
      | some pe =>
        simp only [oMerge]
        exact getName_mergeVal_stable e pe ((wf_vlist_iff t).1 hwt e he)
          (hNt.1 e he) (getName_of_findName h)
    have hnames' : t'.map getName = t.map getName := by
      rw [ht', List.map_map]
      exact List.map_congr_left hstable
    have hNt' : nameListU t' := by
      constructor
      · intro e he
        rw [ht'] at he
        obtain ⟨x, hx, rfl⟩ := List.mem_map.1 he
        rw [hstable x hx]
        exact hNt.1 x hx
      · rw [hnames']; exact hNt.2
    have hwt' : wf (.vlist t') := by
      rw [ht', ← mergeNL_eq_map, ← List.append_nil (mergeNL t q), ← hap,
        ← mergeVal_list_list_pos t q hNt hNq]
      exact wf_mergeVal _ _ hwt hwq
    have hnamesrest : ∀ p ∈ rest, ∀ e ∈ p, getName e ∈ t'.map getName := by
      intro p hp e he
      rw [hnames']
      exact hnames p (by simp [hp]) e he
    rw [ih t' (fun p hp => hNQ p (by simp [hp])) (fun p hp => hwQ p (by simp [hp]))
      hNt' hwt' hnamesrest, ht', List.map_map]
    congr 1
    apply List.map_congr_left
    intro e he
    simp only [Function.comp]
    rw [hstable e he]
    simp only [List.map_cons, oFold_cons]

theorem nl_fold_pointwise_sat (Q : List (List Val)) (t : List Val)
    (hNQ : ∀ q ∈ Q, nameListU q) (hwQ : ∀ q ∈ Q, wf (.vlist q))
    (hNt : nameListU t) (hwt : wf (.vlist t))
    (hnames : ∀ q ∈ Q, ∀ e ∈ q, getName e ∈ t.map getName)
    (hsat : foldMerge (.vlist t) (Q.map .vlist) = .vlist t) :
    ∀ e ∈ t, oFold e (Q.map fun q => findName q (getName e)) = e := by
  have hpos := nlfold_positional Q t hNQ hwQ hNt hwt hnames
  rw [hsat] at hpos
  have : t.map (fun e => oFold e (Q.map fun q => findName q (getName e))) = t := by
    injection hpos.symm
  intro e he
  exact eq_of_map_eq_self t _ this e he

theorem exists_vmap_of_isMapB {v : Val} (h : isMapB v = true) :
    ∃ es, v = .vmap es := by
  cases v <;> simp [isMapB] at h ⊢

theorem exists_vlist_of_isListB {v : Val} (h : isListB v = true) :
    ∃ es, v = .vlist es := by
  cases v <;> simp [isListB] at h ⊢

theorem allMaps_eq : ∀ (Q : List Val), (∀ q ∈ Q, isMapB q = true) →
    Q = (Q.map ents).map Val.vmap := by
  intro Q
  induction Q with
  | nil => simp
  | cons q rest ih =>
    intro h
    obtain ⟨es, rfl⟩ := exists_vmap_of_isMapB (h q (by simp))
    simp only [List.map_cons, ents, List.cons.injEq]
    exact ⟨trivial, ih fun x hx => h x (by simp [hx])⟩

theorem allLists_eq : ∀ (Q : List Val), (∀ q ∈ Q, isListB q = true) →
    Q = (Q.map elems).map Val.vlist := by
  intro Q
  induction Q with
  | nil => simp
  | cons q rest ih =>
    intro h
    obtain ⟨es, rfl⟩ := exists_vlist_of_isListB (h q (by simp))
    simp only [List.map_cons, elems, List.cons.injEq]
    exact ⟨trivial, ih fun x hx => h x (by simp [hx])⟩

theorem oFold_none (a : Val) : ∀ (os : List (Option Val)),
    (∀ o ∈ os, o = none) → oFold a os = a := by
  intro os
  induction os generalizing a with
  | nil => simp
  | cons o rest ih =>
    intro h
    rw [h o (by simp)]
    simp only [oFold_cons, oMerge]
    exact ih a fun x hx => h x (by simp [hx])

/-- The evolved element of a name-wise fold keeps its `name` field,
provided every patch element carries the same name. -/
theorem oFold_name_stable : ∀ (os : List (Option Val)) (e : Val), wf e →
    (getName e).isSome = true →
    (∀ o ∈ os, ∀ x, o = some x → getName x = getName e ∧ wf x) →
    getName (oFold e os) = getName e ∧ wf (oFold e os) := by
  intro os
  induction os with
  | nil => exact fun e hwe hse _ => ⟨rfl, hwe⟩
  | cons o rest ih =>
    intro e hwe hse hos
    cases o with
    | none =>
      rw [oFold_cons]
      exact ih e hwe hse fun o ho x hx => hos o (by simp [ho]) x hx
    | some x =>
      obtain ⟨hxn, hxw⟩ := hos (some x) (by simp) x rfl
      have hstab : getName (mergeVal e x) = getName e :=
        getName_mergeVal_stable e x hwe hse hxn
      rw [oFold_cons]
      have := ih (mergeVal e x) (wf_mergeVal e x hwe hxw)
        (by rw [hstab]; exact hse)
        (fun o ho y hy => by
          obtain ⟨h1, h2⟩ := hos o (by simp [ho]) y hy
          exact ⟨by rw [h1, hstab], h2⟩)
      simp only [oMerge]
      rw [this.1, hstab]
      exact ⟨rfl, this.2⟩

/-- If some patch list in the sequence is not a selector-convention
list, the fold from any two list states collapses to the same value. -/
theorem foldMerge_list_const : ∀ (Ql : List (List Val)) (a b : Val),
    isListB a = true → isListB b = true →
    (∃ q ∈ Ql, ¬nameListU q) →
    foldMerge a (Ql.map .vlist) = foldMerge b (Ql.map .vlist) := by
  intro Ql
  induction Ql with
  | nil => intro a b _ _ h; simp at h
  | cons q rest ih =>
    intro a b ha hb h
    obtain ⟨ea, rfl⟩ := exists_vlist_of_isListB ha
    obtain ⟨eb, rfl⟩ := exists_vlist_of_isListB hb
    by_cases hq : nameListU q
    · obtain ⟨w, hw, hwn⟩ := h
      rcases List.mem_cons.1 hw with rfl | hw'
      · exact absurd hq hwn
      · exact ih (mergeVal (.vlist ea) (.vlist q)) (mergeVal (.vlist eb) (.vlist q))
          (isListB_mergeVal_list _ _ rfl) (isListB_mergeVal_list _ _ rfl)
          ⟨w, hw', hwn⟩
    · simp only [List.map_cons, foldMerge_cons]
      rw [mergeVal_list_list, if_neg fun hc => hq hc.2,
        mergeVal_list_list, if_neg fun hc => hq hc.2]

theorem wf_filterMap_plookup (Qm : List (List (String × Val))) (k : String)
    (hw : ∀ q ∈ Qm, ∀ e ∈ q, wf e.2) :
    ∀ x ∈ ((Qm.map fun q => plookup q k).filterMap id), wf x := by
  intro x hx
  obtain ⟨o, ho, hox⟩ := List.mem_filterMap.1 hx
  obtain ⟨q, hq, rfl⟩ := List.mem_map.1 ho
  exact plookup_wf (hw q hq) hox

theorem wf_filterMap_findName (Ql : List (List Val)) (n : Option Val)
    (hw : ∀ q ∈ Ql, ∀ e ∈ q, wf e) :
    ∀ x ∈ ((Ql.map fun q => findName q n).filterMap id), wf x := by
  intro x hx
  obtain ⟨o, ho, hox⟩ := List.mem_filterMap.1 hx
  obtain ⟨q, hq, rfl⟩ := List.mem_map.1 ho
  exact findName_wf (hw q hq) hox

theorem mergeVal_vnull (t : Val) : mergeVal t Val.vnull = Val.vnull :=
  mergeVal_scalar t _ rfl

theorem mergeVal_vstr (t : Val) (s : String) :
    mergeVal t (Val.vstr s) = Val.vstr s :=
  mergeVal_scalar t _ rfl

theorem mergeVal_vint (t : Val) (n : Int) :
    mergeVal t (Val.vint n) = Val.vint n :=
  mergeVal_scalar t _ rfl

/-- Stability of a saturated state: if replaying `Q` on `z` returns
`z`, then perturbing `z` by an extra patch `r` and replaying `Q`
followed by a final merge of `r` yields `mergeVal z r` again. -/
theorem mlemma : ∀ (r z : Val) (Q : List Val), wf z → wf r → (∀ q ∈ Q, wf q) →
    foldMerge z Q = z →
    mergeVal (foldMerge (mergeVal z r) Q) r = mergeVal z r
  | .vnull, z, Q, _, _, _, _ => by
    simp only [mergeVal_vnull]
  | .vstr s, z, Q, _, _, _, _ => by
    simp only [mergeVal_vstr]
  | .vint n, z, Q, _, _, _, _ => by
    simp only [mergeVal_vint]
  | .vmap tr, .vmap tz, Q, hwz, hwr, hwQ, hsat => by
    rcases foldMerge_dichotomy Q (mergeVal (.vmap tz) (.vmap tr)) (.vmap tz)
        (Or.inr (Or.inl ⟨isMapB_mergeVal_map _ _, rfl⟩)) with heq | hall | hbad
    · rw [heq, hsat]
    · -- every patch is a mapping: positional reasoning
      obtain ⟨hallm, -, -⟩ := hall
      obtain ⟨hndz, hvz⟩ := (wf_vmap_iff tz).1 hwz
      obtain ⟨hndr, hvr⟩ := (wf_vmap_iff tr).1 hwr
      have hQeq := allMaps_eq Q hallm
      rw [hQeq] at hsat ⊢
      set Qm := Q.map ents with hQm
      have hwQm : ∀ q ∈ Qm, ∀ e ∈ q, wf e.2 := by
        intro q hq e he
        rw [hQm] at hq
        obtain ⟨x, hx, rfl⟩ := List.mem_map.1 hq
        obtain ⟨es, rfl⟩ := exists_vmap_of_isMapB (hallm x hx)
        exact ((wf_vmap_iff es).1 (hwQ _ hx)).2 e he
      have hnogrow := map_fold_nogrow Qm tz tz hsat rfl
      have hptsat := map_fold_pointwise_sat Qm tz hnogrow hsat
      rw [mergeVal_map_map]
      set nr := tr.filter (fun e => (plookup tz e.1).isNone) with hnr
      set t0 := mergeInto tz tr ++ nr with ht0
      have hkeys0 : t0.map Prod.fst = tz.map Prod.fst ++ nr.map Prod.fst := by
        rw [ht0, List.map_append, keys_mergeInto]
      have hkeysQ : ∀ q ∈ Qm, ∀ e ∈ q, e.1 ∈ t0.map Prod.fst := by
        intro q hq e he
        rw [hkeys0]
        exact List.mem_append.2 (Or.inl (hnogrow q hq e he))
      have hpos := mapfold_positional Qm t0 hkeysQ
      rw [hpos, mergeVal_map_map]
      have hkeysF : (t0.map fun e =>
          (e.1, oFold e.2 (Qm.map fun q => plookup q e.1))).map Prod.fst =
          t0.map Prod.fst := by
        rw [List.map_map]; rfl
      have hfil2 : tr.filter (fun e => (plookup (t0.map fun e =>
          (e.1, oFold e.2 (Qm.map fun q => plookup q e.1))) e.1).isNone) = [] := by
        apply filter_nil_of
        intro a ha
        have hmem : a.1 ∈ t0.map Prod.fst := by
          rw [hkeys0]
          apply List.mem_append.2
          cases h : plookup tz a.1 with
          | some v =>
            exact Or.inl ((plookup_isSome_iff tz a.1).1 (by simp [h]))
          | none =>
            refine Or.inr (List.mem_map_of_mem Prod.fst ?_)
            rw [hnr, List.mem_filter]
            exact ⟨ha, by simp [h]⟩
        have := (plookup_isSome_iff _ a.1).2 (by rw [hkeysF]; exact hmem)
        cases h : plookup (t0.map fun e =>
            (e.1, oFold e.2 (Qm.map fun q => plookup q e.1))) a.1 with
        | none => rw [h] at this; simp at this
        | some v => simp
      rw [hfil2, List.append_nil]
      congr 1
      rw [mergeInto_eq_map, List.map_map]
      apply map_eq_self_of
      intro e he
      show (e.1, oMerge (oFold e.2 (Qm.map fun q => plookup q e.1))
        (plookup tr e.1)) = e
      rcases List.mem_append.1 (ht0 ▸ he) with hin | hfil
      · rw [mergeInto_eq_map] at hin
        obtain ⟨y, hy, rfl⟩ := List.mem_map.1 hin
        cases hplk : plookup tr y.1 with
        | some pv =>
          simp only [hplk, oMerge, Prod.mk.injEq, true_and]
          rw [oFold_eq_foldMerge]
          exact mlemma pv y.2 (((Qm.map fun q => plookup q y.1)).filterMap id)
            (hvz y hy) (plookup_wf hvr hplk)
            (wf_filterMap_plookup Qm y.1 hwQm)
            (by rw [← oFold_eq_foldMerge]; exact hptsat y hy)
        | none =>
          simp only [hplk, oMerge, Prod.mk.injEq, true_and]
          exact hptsat y hy
      · have hetr : e ∈ tr := List.mem_of_mem_filter hfil
        have hnone : plookup tz e.1 = none := by
          have := (List.mem_filter.1 hfil).2
          simpa [Option.isNone_iff_eq_none] using this
        have hnotin : e.1 ∉ tz.map Prod.fst := by
          intro hmem
          have := (plookup_isSome_iff tz e.1).2 hmem
          rw [hnone] at this; simp at this
        have hosn : ∀ o ∈ Qm.map (fun q => plookup q e.1), o = none := by
          intro o ho
          obtain ⟨q, hq, rfl⟩ := List.mem_map.1 ho
          apply plookup_eq_none_of_not_mem
          intro hmemq
          obtain ⟨f, hf, hfe⟩ := List.mem_map.1 hmemq
          exact hnotin (hfe ▸ hnogrow q hq f hf)
        rw [oFold_none _ _ hosn,
          plookup_mem_of_nodup tr e.1 e.2 hndr hetr]
        simp only [oMerge]
        rw [mergeVal_self e.2 (hvr e hetr)]
    · have := isMapB_mergeVal_map (Val.vmap tz) tr
      rw [isMapB_exclusive _ this] at hbad
      exact absurd hbad.2.1 (by simp)
  | .vmap tr, .vlist tz, Q, hwz, hwr, hwQ, hsat => by
    rw [show mergeVal (Val.vlist tz) (Val.vmap tr) = Val.vmap tr from by
      simp [mergeVal]]
    cases Q with
    | nil => simpa using mergeVal_self (Val.vmap tr) hwr
    | cons q Qr =>
      rw [foldMerge_cons] at hsat ⊢
      cases q with
      | vmap qp =>
        rcases foldMerge_dichotomy Qr (mergeVal (.vmap tr) (.vmap qp))
            (mergeVal (.vlist tz) (.vmap qp))
            (Or.inr (Or.inl ⟨isMapB_mergeVal_map _ _, isMapB_mergeVal_map _ _⟩))
          with heq | hall | hbad
        · rw [heq, hsat]
          simp [mergeVal]
        · have hfold := isMapB_foldMerge Qr (mergeVal (.vlist tz) (.vmap qp))
            (isMapB_mergeVal_map _ _) hall.1
          rw [hsat] at hfold
          simp [isMapB] at hfold
        · have := isMapB_mergeVal_map (Val.vmap tr) qp
          rw [isMapB_exclusive _ this] at hbad
          exact absurd hbad.2.1 (by simp)
      | vlist qp =>
        rw [show mergeVal (Val.vmap tr) (Val.vlist qp) = Val.vlist qp from by
          simp [mergeVal]]
        rcases foldMerge_dichotomy Qr (Val.vlist qp)
            (mergeVal (.vlist tz) (.vlist qp))
            (Or.inr (Or.inr ⟨rfl, isListB_mergeVal_list _ _ rfl⟩))
          with heq | hbad | hall
        · rw [heq, hsat]
          simp [mergeVal]
        · exact absurd hbad.2.1 (by simp [isMapB])
        · obtain ⟨S, hS⟩ := exists_vlist_of_isListB
            (isListB_foldMerge Qr (Val.vlist qp) rfl hall.1)
          rw [hS]
          simp [mergeVal]
      | vnull =>
        simp only [mergeVal_vnull] at hsat ⊢
        rw [hsat]
        simp [mergeVal]
      | vstr s0 =>
        simp only [mergeVal_vstr] at hsat ⊢
        rw [hsat]
        simp [mergeVal]
      | vint n0 =>
        simp only [mergeVal_vint] at hsat ⊢
        rw [hsat]
        simp [mergeVal]
  | .vmap tr, .vnull, Q, hwz, hwr, hwQ, hsat => by
    rw [show mergeVal Val.vnull (Val.vmap tr) = Val.vmap tr from by
      simp [mergeVal]]
    cases Q with
    | nil => simpa using mergeVal_self (Val.vmap tr) hwr
    | cons q Qr =>
      rw [foldMerge_cons] at hsat ⊢
      cases q with
      | vmap qp =>
        rcases foldMerge_dichotomy Qr (mergeVal (.vmap tr) (.vmap qp))
            (mergeVal Val.vnull (.vmap qp))
            (Or.inr (Or.inl ⟨isMapB_mergeVal_map _ _, isMapB_mergeVal_map _ _⟩))
          with heq | hall | hbad
        · rw [heq, hsat]
          simp [mergeVal]
        · have hfold := isMapB_foldMerge Qr (mergeVal Val.vnull (.vmap qp))
            (isMapB_mergeVal_map _ _) hall.1
          rw [hsat] at hfold
          simp [isMapB] at hfold
        · have := isMapB_mergeVal_map (Val.vmap tr) qp
          rw [isMapB_exclusive _ this] at hbad
          exact absurd hbad.2.1 (by simp)
      | vlist qp =>
        rw [show mergeVal (Val.vmap tr) (Val.vlist qp) = Val.vlist qp from by
          simp [mergeVal]]
        rw [show mergeVal Val.vnull (Val.vlist qp) = Val.vlist qp from by
          simp [mergeVal]] at hsat
        rw [hsat]
        simp [mergeVal]
      | vnull =>
        simp only [mergeVal_vnull] at hsat ⊢
        rw [hsat]
        simp [mergeVal]
      | vstr s0 =>
        simp only [mergeVal_vstr] at hsat ⊢
        rw [hsat]
        simp [mergeVal]
      | vint n0 =>
        simp only [mergeVal_vint] at hsat ⊢
        rw [hsat]
        simp [mergeVal]
  | .vmap tr, .vstr sz, Q, hwz, hwr, hwQ, hsat => by
    rw [show mergeVal (Val.vstr sz) (Val.vmap tr) = Val.vmap tr from by
      simp [mergeVal]]
    cases Q with
    | nil => simpa using mergeVal_self (Val.vmap tr) hwr
    | cons q Qr =>
      rw [foldMerge_cons] at hsat ⊢
      cases q with
      | vmap qp =>
        rcases foldMerge_dichotomy Qr (mergeVal (.vmap tr) (.vmap qp))
            (mergeVal (Val.vstr sz) (.vmap qp))
            (Or.inr (Or.inl ⟨isMapB_mergeVal_map _ _, isMapB_mergeVal_map _ _⟩))
          with heq | hall | hbad
        · rw [heq, hsat]
          simp [mergeVal]
        · have hfold := isMapB_foldMerge Qr (mergeVal (Val.vstr sz) (.vmap qp))
            (isMapB_mergeVal_map _ _) hall.1
          rw [hsat] at hfold
          simp [isMapB] at hfold
        · have := isMapB_mergeVal_map (Val.vmap tr) qp
          rw [isMapB_exclusive _ this] at hbad
          exact absurd hbad.2.1 (by simp)
      | vlist qp =>
        rw [show mergeVal (Val.vmap tr) (Val.vlist qp) = Val.vlist qp from by
          simp [mergeVal]]
        rw [show mergeVal (Val.vstr sz) (Val.vlist qp) = Val.vlist qp from by
          simp [mergeVal]] at hsat
        rw [hsat]
        simp [mergeVal]
      | vnull =>
        simp only [mergeVal_vnull] at hsat ⊢
        rw [hsat]
        simp [mergeVal]
      | vstr s0 =>
        simp only [mergeVal_vstr] at hsat ⊢
        rw [hsat]
        simp [mergeVal]
      | vint n0 =>
        simp only [mergeVal_vint] at hsat ⊢
        rw [hsat]
        simp [mergeVal]
  | .vmap tr, .vint nz, Q, hwz, hwr, hwQ, hsat => by
    rw [show mergeVal (Val.vint nz) (Val.vmap tr) = Val.vmap tr from by
      simp [mergeVal]]
    cases Q with
    | nil => simpa using mergeVal_self (Val.vmap tr) hwr
    | cons q Qr =>
      rw [foldMerge_cons] at hsat ⊢
      cases q with
      | vmap qp =>
        rcases foldMerge_dichotomy Qr (mergeVal (.vmap tr) (.vmap qp))
            (mergeVal (Val.vint nz) (.vmap qp))
            (Or.inr (Or.inl ⟨isMapB_mergeVal_map _ _, isMapB_mergeVal_map _ _⟩))
          with heq | hall | hbad
        · rw [heq, hsat]
          simp [mergeVal]
        · have hfold := isMapB_foldMerge Qr (mergeVal (Val.vint nz) (.vmap qp))
            (isMapB_mergeVal_map _ _) hall.1
          rw [hsat] at hfold
          simp [isMapB] at hfold
        · have := isMapB_mergeVal_map (Val.vmap tr) qp
          rw [isMapB_exclusive _ this] at hbad
          exact absurd hbad.2.1 (by simp)
      | vlist qp =>
        rw [show mergeVal (Val.vmap tr) (Val.vlist qp) = Val.vlist qp from by
          simp [mergeVal]]
        rw [show mergeVal (Val.vint nz) (Val.vlist qp) = Val.vlist qp from by
          simp [mergeVal]] at hsat
        rw [hsat]
        simp [mergeVal]
      | vnull =>
        simp only [mergeVal_vnull] at hsat ⊢
        rw [hsat]
        simp [mergeVal]
      | vstr s0 =>
        simp only [mergeVal_vstr] at hsat ⊢
        rw [hsat]
        simp [mergeVal]
      | vint n0 =>
        simp only [mergeVal_vint] at hsat ⊢
        rw [hsat]
        simp [mergeVal]
  | .vlist tr, .vmap tz, Q, hwz, hwr, hwQ, hsat => by
    rw [show mergeVal (Val.vmap tz) (Val.vlist tr) = Val.vlist tr from by
      simp [mergeVal]]
    cases Q with
    | nil => simpa using mergeVal_self (Val.vlist tr) hwr
    | cons q Qr =>
      rw [foldMerge_cons] at hsat ⊢
      cases q with
      | vmap qp =>
        rw [show mergeVal (Val.vlist tr) (Val.vmap qp) = Val.vmap qp from by
          simp [mergeVal]]
        rcases foldMerge_dichotomy Qr (Val.vmap qp)
            (mergeVal (.vmap tz) (.vmap qp))
            (Or.inr (Or.inl ⟨rfl, isMapB_mergeVal_map _ _⟩))
          with heq | hall | hbad
        · rw [heq, hsat]
          simp [mergeVal]
        · obtain ⟨M, hM⟩ := exists_vmap_of_isMapB
            (isMapB_foldMerge Qr (Val.vmap qp) rfl hall.1)
          rw [hM]
          simp [mergeVal]
        · exact absurd hbad.2.1 (by simp [isListB])
      | vlist qp =>
        rw [show mergeVal (Val.vmap tz) (Val.vlist qp) = Val.vlist qp from by
          simp [mergeVal]] at hsat
        rcases foldMerge_dichotomy Qr (mergeVal (.vlist tr) (.vlist qp))
            (Val.vlist qp)
            (Or.inr (Or.inr ⟨isListB_mergeVal_list _ _ rfl, rfl⟩))
          with heq | hbad | hall
        · rw [heq, hsat]
          simp [mergeVal]
        · have := isListB_mergeVal_list (Val.vlist tr) qp rfl
          rw [isListB_exclusive _ this] at hbad
          exact absurd hbad.2.1 (by simp)
        · have hfold := isListB_foldMerge Qr (Val.vlist qp) rfl hall.1
          rw [hsat] at hfold
          simp [isListB] at hfold
      | vnull =>
        simp only [mergeVal_vnull] at hsat ⊢
        rw [hsat]
        simp [mergeVal]
      | vstr s0 =>
        simp only [mergeVal_vstr] at hsat ⊢
        rw [hsat]
        simp [mergeVal]
      | vint n0 =>
        simp only [mergeVal_vint] at hsat ⊢
        rw [hsat]
        simp [mergeVal]
  | .vlist tr, .vnull, Q, hwz, hwr, hwQ, hsat => by
    rw [show mergeVal Val.vnull (Val.vlist tr) = Val.vlist tr from by
      simp [mergeVal]]
    cases Q with
    | nil => simpa using mergeVal_self (Val.vlist tr) hwr
    | cons q Qr =>
      rw [foldMerge_cons] at hsat ⊢
      cases q with
      | vmap qp =>
        rw [show mergeVal (Val.vlist tr) (Val.vmap qp) = Val.vmap qp from by
          simp [mergeVal]]
        rw [show mergeVal Val.vnull (Val.vmap qp) = Val.vmap qp from by
          simp [mergeVal]] at hsat
        rw [hsat]
        simp [mergeVal]
      | vlist qp =>
        rw [show mergeVal Val.vnull (Val.vlist qp) = Val.vlist qp from by
          simp [mergeVal]] at hsat
        rcases foldMerge_dichotomy Qr (mergeVal (.vlist tr) (.vlist qp))
            (Val.vlist qp)
            (Or.inr (Or.inr ⟨isListB_mergeVal_list _ _ rfl, rfl⟩))
          with heq | hbad | hall
        · rw [heq, hsat]
          simp [mergeVal]
        · have := isListB_mergeVal_list (Val.vlist tr) qp rfl
          rw [isListB_exclusive _ this] at hbad
          exact absurd hbad.2.1 (by simp)
        · have hfold := isListB_foldMerge Qr (Val.vlist qp) rfl hall.1
          rw [hsat] at hfold
          simp [isListB] at hfold
      | vnull =>
        simp only [mergeVal_vnull] at hsat ⊢
        rw [hsat]
        simp [mergeVal]
      | vstr s0 =>
        simp only [mergeVal_vstr] at hsat ⊢
        rw [hsat]
        simp [mergeVal]
      | vint n0 =>
        simp only [mergeVal_vint] at hsat ⊢
        rw [hsat]
        simp [mergeVal]
  | .vlist tr, .vstr sz, Q, hwz, hwr, hwQ, hsat => by
    rw [show mergeVal (Val.vstr sz) (Val.vlist tr) = Val.vlist tr from by
      simp [mergeVal]]
    cases Q with
    | nil => simpa using mergeVal_self (Val.vlist tr) hwr
    | cons q Qr =>
      rw [foldMerge_cons] at hsat ⊢
      cases q with
      | vmap qp =>
        rw [show mergeVal (Val.vlist tr) (Val.vmap qp) = Val.vmap qp from by
          simp [mergeVal]]
        rw [show mergeVal (Val.vstr sz) (Val.vmap qp) = Val.vmap qp from by
          simp [mergeVal]] at hsat
        rw [hsat]
        simp [mergeVal]
      | vlist qp =>
        rw [show mergeVal (Val.vstr sz) (Val.vlist qp) = Val.vlist qp from by
          simp [mergeVal]] at hsat
        rcases foldMerge_dichotomy Qr (mergeVal (.vlist tr) (.vlist qp))
            (Val.vlist qp)
            (Or.inr (Or.inr ⟨isListB_mergeVal_list _ _ rfl, rfl⟩))
          with heq | hbad | hall
        · rw [heq, hsat]
          simp [mergeVal]
        · have := isListB_mergeVal_list (Val.vlist tr) qp rfl
          rw [isListB_exclusive _ this] at hbad
          exact absurd hbad.2.1 (by simp)
        · have hfold := isListB_foldMerge Qr (Val.vlist qp) rfl hall.1
          rw [hsat] at hfold
          simp [isListB] at hfold
      | vnull =>
        simp only [mergeVal_vnull] at hsat ⊢
        rw [hsat]
        simp [mergeVal]
      | vstr s0 =>
        simp only [mergeVal_vstr] at hsat ⊢
        rw [hsat]
        simp [mergeVal]
      | vint n0 =>
        simp only [mergeVal_vint] at hsat ⊢
        rw [hsat]
        simp [mergeVal]
  | .vlist tr, .vint nz, Q, hwz, hwr, hwQ, hsat => by
    rw [show mergeVal (Val.vint nz) (Val.vlist tr) = Val.vlist tr from by
      simp [mergeVal]]
    cases Q with
    | nil => simpa using mergeVal_self (Val.vlist tr) hwr
    | cons q Qr =>
      rw [foldMerge_cons] at hsat ⊢
      cases q with
      | vmap qp =>
        rw [show mergeVal (Val.vlist tr) (Val.vmap qp) = Val.vmap qp from by
          simp [mergeVal]]
        rw [show mergeVal (Val.vint nz) (Val.vmap qp) = Val.vmap qp from by
          simp [mergeVal]] at hsat
        rw [hsat]
        simp [mergeVal]
      | vlist qp =>
        rw [show mergeVal (Val.vint nz) (Val.vlist qp) = Val.vlist qp from by
          simp [mergeVal]] at hsat
        rcases foldMerge_dichotomy Qr (mergeVal (.vlist tr) (.vlist qp))
            (Val.vlist qp)
            (Or.inr (Or.inr ⟨isListB_mergeVal_list _ _ rfl, rfl⟩))
          with heq | hbad | hall
        · rw [heq, hsat]
          simp [mergeVal]
        · have := isListB_mergeVal_list (Val.vlist tr) qp rfl
          rw [isListB_exclusive _ this] at hbad
          exact absurd hbad.2.1 (by simp)
        · have hfold := isListB_foldMerge Qr (Val.vlist qp) rfl hall.1
          rw [hsat] at hfold
          simp [isListB] at hfold
      | vnull =>
        simp only [mergeVal_vnull] at hsat ⊢
        rw [hsat]
        simp [mergeVal]
      | vstr s0 =>
        simp only [mergeVal_vstr] at hsat ⊢
        rw [hsat]
        simp [mergeVal]
      | vint n0 =>
        simp only [mergeVal_vint] at hsat ⊢
        rw [hsat]
        simp [mergeVal]
  | .vlist tr, .vlist tz, Q, hwz, hwr, hwQ, hsat => by
    rcases foldMerge_dichotomy Q (mergeVal (.vlist tz) (.vlist tr)) (.vlist tz)
        (Or.inr (Or.inr ⟨isListB_mergeVal_list _ _ rfl, rfl⟩)) with heq | hbad | hall
    · rw [heq, hsat]
    · have := isListB_mergeVal_list (Val.vlist tz) tr rfl
      rw [isListB_exclusive _ this] at hbad
      exact absurd hbad.2.1 (by simp)
    · obtain ⟨halll, -, -⟩ := hall
      have hQeq := allLists_eq Q halll
      rw [hQeq] at hsat ⊢
      set Ql := Q.map elems with hQl
      have hwQl : ∀ q ∈ Ql, wf (.vlist q) := by
        intro q hq
        rw [hQl] at hq
        obtain ⟨x, hx, rfl⟩ := List.mem_map.1 hq
        obtain ⟨es, rfl⟩ := exists_vlist_of_isListB (halll x hx)
        exact hwQ _ hx
      by_cases hex : ∃ q ∈ Ql, ¬nameListU q
      · have hc := foldMerge_list_const Ql (mergeVal (.vlist tz) (.vlist tr))
          (.vlist tz) (isListB_mergeVal_list _ _ rfl) rfl hex
        rw [hc, hsat]
      · push_neg at hex
        by_cases hQn : Ql = []
        · rw [hQn]
          simp only [List.map_nil, foldMerge_nil]
          exact mergeVal_idem (Val.vlist tz) (Val.vlist tr) hwz hwr
        · have hNtz : nameListU tz := by
            obtain ⟨q0, Qrest, hQlc⟩ := List.exists_cons_of_ne_nil hQn
            by_contra hcon
            have hq0 : nameListU q0 := hex q0 (by rw [hQlc]; simp)
            obtain ⟨z1, hz1, hNz1, -, -⟩ := nl_fold_exists Qrest q0
              (fun p hp => hex p (by rw [hQlc]; simp [hp]))
              (fun p hp => hwQl p (by rw [hQlc]; simp [hp]))
              hq0 (hwQl q0 (by rw [hQlc]; simp))
            rw [hQlc, List.map_cons, foldMerge_cons,
              mergeVal_list_list, if_neg (fun hc => hcon hc.1)] at hsat
            rw [hsat] at hz1
            have htzz : tz = z1 := by injection hz1
            exact hcon (by rw [htzz]; exact hNz1)
          by_cases hNtr : nameListU tr
          · -- positional name-wise case
            have hvz := (wf_vlist_iff tz).1 hwz
            have hvr := (wf_vlist_iff tr).1 hwr
            have hNQl : ∀ q ∈ Ql, nameListU q := hex
            have hwQle : ∀ q ∈ Ql, ∀ x ∈ q, wf x := fun q hq =>
              (wf_vlist_iff q).1 (hwQl q hq)
            have hnogrow := nl_fold_nogrow Ql tz tz hNQl hwQl hNtz hwz hsat rfl
            have hptsat := nl_fold_pointwise_sat Ql tz hNQl hwQl hNtz hwz
              hnogrow hsat
            rw [mergeVal_list_list_pos tz tr hNtz hNtr]
            set ap := tr.filter (fun e => (findName tz (getName e)).isNone)
              with hap
            set t0 := mergeNL tz tr ++ ap with ht0
            obtain ⟨hnames0, hNt0⟩ :=
              nameListU_merge_result tz tr hNtz hNtr hvz
            have hwt0 : wf (.vlist t0) := by
              rw [ht0, hap, ← mergeVal_list_list_pos tz tr hNtz hNtr]
              exact wf_mergeVal _ _ hwz hwr
            have hnamest0 : t0.map getName =
                tz.map getName ++ ap.map getName := by
              rw [ht0, List.map_append,
                namesOf_mergeNL tz tr hvz hNtz.1]
            have hnamesQ : ∀ q ∈ Ql, ∀ e ∈ q, getName e ∈ t0.map getName := by
              intro q hq e he
              rw [hnamest0]
              exact List.mem_append.2 (Or.inl (hnogrow q hq e he))
            have hpos := nlfold_positional Ql t0 hNQl hwQl hNt0 hwt0 hnamesQ
            rw [hpos]
            obtain ⟨z0, hz0, hNz0, hwz0, -⟩ :=
              nl_fold_exists Ql t0 hNQl hwQl hNt0 hwt0
            rw [hpos] at hz0
            have hz0eq : (t0.map fun e =>
                oFold e (Ql.map fun q => findName q (getName e))) = z0 := by
              injection hz0
            have hNF : nameListU (t0.map fun e =>
                oFold e (Ql.map fun q => findName q (getName e))) := by
              rw [hz0eq]; exact hNz0
            have hstabF : ∀ e ∈ t0,
                getName (oFold e (Ql.map fun q => findName q (getName e))) =
                  getName e := by
              intro e he
              refine (oFold_name_stable _ e ((wf_vlist_iff t0).1 hwt0 e he)
                (hNt0.1 e he) ?_).1
              intro o ho x hx
              obtain ⟨q, hq, rfl⟩ := List.mem_map.1 ho
              exact ⟨getName_of_findName hx, findName_wf (hwQle q hq) hx⟩
            have hnamesF : (t0.map fun e =>
                oFold e (Ql.map fun q => findName q (getName e))).map getName =
                t0.map getName := by
              rw [List.map_map]
              exact List.map_congr_left hstabF
            rw [mergeVal_list_list_pos _ tr hNF hNtr]
            have hfil2 : tr.filter (fun e => (findName (t0.map fun e =>
                oFold e (Ql.map fun q => findName q (getName e)))
                (getName e)).isNone) = [] := by
              apply filter_nil_of
              intro a ha
              have hmem : getName a ∈ t0.map getName := by
                rw [hnamest0]
                apply List.mem_append.2
                cases h : findName tz (getName a) with
                | some x =>
                  refine Or.inl ?_
                  rw [← getName_of_findName h]
                  exact List.mem_map_of_mem getName (mem_of_findName h)
                | none =>
                  refine Or.inr (List.mem_map_of_mem getName ?_)
                  rw [hap, List.mem_filter]
                  exact ⟨ha, by simp [h]⟩
              have := (findName_isSome_iff _ (getName a)).2
                (by rw [hnamesF]; exact hmem)
              cases h : findName (t0.map fun e =>
                  oFold e (Ql.map fun q => findName q (getName e)))
                  (getName a) with
              | none => rw [h] at this; simp at this
              | some v => simp
            rw [hfil2, List.append_nil]
            congr 1
            rw [mergeNL_eq_map, List.map_map]
            apply map_eq_self_of
            intro e he
            show oMerge (oFold e (Ql.map fun q => findName q (getName e)))
              (findName tr (getName (oFold e
                (Ql.map fun q => findName q (getName e))))) = e
            rw [hstabF e he]
            rcases List.mem_append.1 (ht0 ▸ he) with hin | hfil
            · rw [mergeNL_eq_map] at hin
              obtain ⟨y, hy, rfl⟩ := List.mem_map.1 hin
              cases hk : findName tr (getName y) with
              | none =>
                simp only [hk, oMerge]
                exact hptsat y hy
              | some pe =>
                simp only [oMerge]
                have hgn : getName (mergeVal y pe) = getName y :=
                  getName_mergeVal_stable y pe (hvz y hy) (hNtz.1 y hy)
                    (getName_of_findName hk)
                rw [hgn, hk]
                simp only [oMerge]
                rw [oFold_eq_foldMerge]
                exact mlemma pe y
                  ((Ql.map fun q => findName q (getName y)).filterMap id)
                  (hvz y hy) (findName_wf hvr hk)
                  (wf_filterMap_findName Ql (getName y) hwQle)
                  (by rw [← oFold_eq_foldMerge]; exact hptsat y hy)
            · have hetr : e ∈ tr := List.mem_of_mem_filter hfil
              have hnone : findName tz (getName e) = none := by
                have := (List.mem_filter.1 hfil).2
                simpa [Option.isNone_iff_eq_none] using this
              have hnotin : getName e ∉ tz.map getName := by
                intro hmem
                have := (findName_isSome_iff tz (getName e)).2 hmem
                rw [hnone] at this; simp at this
              have hosn : ∀ o ∈ Ql.map (fun q => findName q (getName e)),
                  o = none := by
                intro o ho
                obtain ⟨q, hq, rfl⟩ := List.mem_map.1 ho
                apply findName_eq_none_of_not_mem
                intro hmemq
                obtain ⟨f, hf, hfe⟩ := List.mem_map.1 hmemq
                exact hnotin (hfe ▸ hnogrow q hq f hf)
              rw [oFold_none _ _ hosn,
                findName_self_of_nodup tr e hNtr.2 hetr]
              simp only [oMerge]
              exact mergeVal_self e ((wf_vlist_iff tr).1 hwr e hetr)
          · -- target of the final merge is not a selector list
            rw [mergeVal_list_list, if_neg (fun hc => hNtr hc.2)]
            obtain ⟨S, hS⟩ := exists_vlist_of_isListB
              (isListB_foldMerge (Ql.map .vlist) (Val.vlist tr) rfl
                (by
                  intro x hx
                  obtain ⟨q, hq, rfl⟩ := List.mem_map.1 hx
                  rfl))
            rw [hS, mergeVal_list_list, if_neg (fun hc => hNtr hc.2)]
termination_by r z Q => sizeOf r
decreasing_by
  all_goals simp_wf
  all_goals first
    | (have h := sizeOf_plookup hplk
       simp at h ⊢
       omega)
    | (have h := sizeOf_findName hk
       simp at h ⊢
       omega)

end Val

/-! ## Claim theorems: overlay forging and resolution -/

/-- The nested mapping `{s1: {s2: ... {sn: v}}}` described by the spec
for a plain dotted path `s1.s2.....sn` (used to compare the forging
loop's output against the spec's description). -/
def nestPlain : List String → Val → Val
  | [], v => v
  | s :: rest, v => .vmap [(s, nestPlain rest v)]

/-- C2: for a `ToPath` consisting only of plain (non-selector)
segments, the forging loop of `applyTo` walks the segments right to
left starting from the resolved `From` value and produces exactly the
nested mapping `{s1: {s2: ... {sn: v}}}`. -/
theorem forge_plain_is_nested (filename : String) (segs : List String) (v : Val)
    (h : ∀ s ∈ segs, hasBracket s = false) :
    forge filename segs v = .ok (nestPlain segs v) := by
  induction segs with
  | nil => rfl
  | cons s rest ih =>
    have hs : hasBracket s = false := h s (by simp)
    have hrest := ih (fun x hx => h x (by simp [hx]))
    simp [forge, hrest, forgeSeg, hs, nestPlain, Bind.bind, Except.bind]

theorem forge_plain_is_nested_witness :
    (∀ s ∈ ["webserver", "port"], hasBracket s = false) ∧
    forge "o.yaml" ["webserver", "port"] (.vint 7070) =
      .ok (.vmap [("webserver", .vmap [("port", .vint 7070)])]) := by
  refine ⟨by decide, ?_⟩
  have := forge_plain_is_nested "o.yaml" ["webserver", "port"] (.vint 7070) (by decide)
  simpa [nestPlain] using this

/-- C3: a bracket segment parsed as `[k=v]` is rejected unless `k` is
the literal key `name`; with `k = name` it injects `name = v` into a
mapping accumulator and wraps the result in a single-element list, and
it is an error on a non-mapping accumulator. -/
theorem forgeSeg_selector_cases (filename seg k v : String) (acc : Val)
    (hb : hasBracket seg = true)
    (hcut : cutEq (trimSelector seg) = (k, v, true)) :
    (k ≠ "name" → forgeSeg filename seg acc = .error (.selectorNotName filename)) ∧
    (k = "name" → ∀ m, acc = .vmap m →
      forgeSeg filename seg acc = .ok (.vlist [.vmap (setKey m "name" (.vstr v))])) ∧
    (k = "name" → (∀ m, acc ≠ .vmap m) →
      forgeSeg filename seg acc = .error (.selectorNotMap filename)) := by
  refine ⟨?_, ?_, ?_⟩
  · intro hk
    simp [forgeSeg, hb, hcut, hk]
  · intro hk m hm
    subst hk hm
    simp [forgeSeg, hb, hcut]
  · intro hk hm
    subst hk
    cases acc with
    | vmap m => exact absurd rfl (hm m)
    | vnull => simp [forgeSeg, hb, hcut]
    | vstr _ => simp [forgeSeg, hb, hcut]
    | vint _ => simp [forgeSeg, hb, hcut]
    | vlist _ => simp [forgeSeg, hb, hcut]

theorem forgeSeg_selector_cases_witness :
    hasBracket "[port=8080]" = true ∧
    cutEq (trimSelector "[port=8080]") = ("port", "8080", true) ∧
    forgeSeg "o.yaml" "[port=8080]" (.vmap []) =
      .error (.selectorNotName "o.yaml") ∧
    hasBracket "[name=a]" = true ∧
    cutEq (trimSelector "[name=a]") = ("name", "a", true) ∧
    forgeSeg "o.yaml" "[name=a]" (.vmap [("v", .vint 9)]) =
      .ok (.vlist [.vmap [("v", .vint 9), ("name", .vstr "a")]]) ∧
    forgeSeg "o.yaml" "[name=a]" (.vint 3) =
      .error (.selectorNotMap "o.yaml") := by
  refine ⟨rfl, rfl, ?_, rfl, rfl, ?_, ?_⟩
  · exact (forgeSeg_selector_cases "o.yaml" "[port=8080]" "port" "8080"
      (.vmap []) rfl rfl).1 (by decide)
  · have := (forgeSeg_selector_cases "o.yaml" "[name=a]" "name" "a"
      (.vmap [("v", .vint 9)]) rfl rfl).2.1 rfl [("v", .vint 9)] rfl
    simpa [setKey] using this
  · exact (forgeSeg_selector_cases "o.yaml" "[name=a]" "name" "a"
      (.vint 3) rfl rfl).2.2 rfl (by intro m h; cases h)

theorem resolveLoop_error_shape (path filename : String) :
    ∀ (segs : List String) (slice : List (String × Val)) (acc : Option Val)
      (e : ApplyErr),
      resolveLoop path filename slice acc segs = .error e →
      (∃ field, e = .fromFieldNotFound field path filename) ∨
        e = .fromNil path filename := by
  intro segs
  induction segs with
  | nil =>
    intro slice acc e h
    cases acc with
    | none => right; simpa [resolveLoop] using h.symm
    | some v =>
      simp only [resolveLoop] at h
      split at h
      · right; cases h; rfl
      · cases h
  | cons s rest ih =>
    intro slice acc e h
    simp only [resolveLoop] at h
    split at h
    · left; exact ⟨s, by cases h; rfl⟩
    · exact ih _ _ _ h

/-- C4: when the `From` path does not resolve inside the overlay
document (missing segment during the walk, or terminal `nil` value),
`applyTo` returns an error naming the failing segment (or the path)
and the overlay filename, and the target document is returned
completely unchanged. -/
theorem applyTo_from_error_leaves_target (ov : Overlay)
    (odoc : List (String × Val)) (doc : Val) (e : ApplyErr)
    (h : resolveFrom ov odoc = .error e) :
    Overlay.applyTo ov odoc doc = (doc, some e) ∧
    ((∃ field, e = .fromFieldNotFound field ov.From ov.Filename) ∨
      e = .fromNil ov.From ov.Filename) := by
  constructor
  · simp [Overlay.applyTo, h]
  · exact resolveLoop_error_shape ov.From ov.Filename _ _ _ _ h

theorem applyTo_from_error_witness :
    resolveFrom ⟨"o.yaml", "does.not.exist", ["a"]⟩ [("does", .vmap [])] =
      .error (.fromFieldNotFound "not" "does.not.exist" "o.yaml") ∧
    Overlay.applyTo ⟨"o.yaml", "does.not.exist", ["a"]⟩ [("does", .vmap [])]
        (.vmap [("keep", .vint 1)]) =
      (.vmap [("keep", .vint 1)],
        some (.fromFieldNotFound "not" "does.not.exist" "o.yaml")) := by
  have hres : resolveFrom ⟨"o.yaml", "does.not.exist", ["a"]⟩
      [("does", .vmap [])] =
      .error (.fromFieldNotFound "not" "does.not.exist" "o.yaml") := by
    simp [resolveFrom, resolveLoop, splitDots, splitAux, plookup]
  exact ⟨hres,
    (applyTo_from_error_leaves_target _ _ (.vmap [("keep", .vint 1)]) _ hres).1⟩

/-- C10: a bracket segment that parses as selector key `name` with no
`=value` part (the segment `[name]`) is silently skipped: it neither
errors nor transforms the accumulator, so the forged fragment equals
the one for the same path with that segment removed. -/
theorem forgeSeg_bare_name_skipped (filename : String) :
    (∀ acc : Val, forgeSeg filename "[name]" acc = .ok acc) ∧
    (∀ (pre post : List String) (v : Val),
      forge filename (pre ++ "[name]" :: post) v =
        forge filename (pre ++ post) v) := by
  have hskip : ∀ acc : Val, forgeSeg filename "[name]" acc = .ok acc := by
    intro acc
    simp [forgeSeg, hasBracket, trimSelector, cutEq, cutEqAux]
  refine ⟨hskip, ?_⟩
  intro pre post v
  induction pre with
  | nil =>
    simp only [List.nil_append, forge]
    cases h : forge filename post v with
    | error e => simp [Bind.bind, Except.bind]
    | ok acc => simp [Bind.bind, Except.bind, hskip]
  | cons s rest ih =>
    simp only [List.cons_append, forge]
    rw [show rest.append ("[name]" :: post) = rest ++ "[name]" :: post from rfl,
      show rest.append post = rest ++ post from rfl, ih]

theorem forgeSeg_bare_name_skipped_witness :
    forgeSeg "o.yaml" "[name]" (.vint 5) = .ok (.vint 5) ∧
    forge "o.yaml" ["a", "[name]", "b"] (.vint 5) =
      forge "o.yaml" ["a", "b"] (.vint 5) := by
  refine ⟨(forgeSeg_bare_name_skipped "o.yaml").1 (.vint 5), ?_⟩
  exact (forgeSeg_bare_name_skipped "o.yaml").2 ["a"] ["b"] (.vint 5)

/-- C5: merging an overlay that injects `{name: "a", v: 9}` through the
selector path `items.[name=a]` into a target whose `items` list is
`[{name:"a",v:1}, {name:"b",v:2}]` merges only the element whose
`name` is `"a"`; the `name:"b"` element is present unchanged. -/
theorem applyTo_selector_merges_by_name :
    Overlay.applyTo ⟨"o.yaml", "frag", ["items.[name=a]"]⟩
        [("frag", .vmap [("v", .vint 9)])]
        (.vmap [("items", .vlist
          [.vmap [("name", .vstr "a"), ("v", .vint 1)],
           .vmap [("name", .vstr "b"), ("v", .vint 2)]])]) =
      (.vmap [("items", .vlist
          [.vmap [("name", .vstr "a"), ("v", .vint 9)],
           .vmap [("name", .vstr "b"), ("v", .vint 2)]])], none) := by
  simp [Overlay.applyTo, resolveFrom, resolveLoop, splitDots, splitAux,
    applyPaths, forge, forgeSeg, hasBracket, trimSelector, cutEq, cutEqAux,
    setKey, mergeVal, plookup, findName, getName, nameListU,
    mergeNL_cons_found, mergeNL_cons_none, mergeInto_cons_found,
    mergeInto_cons_none, Bind.bind, Except.bind]

/-! ## Claim theorems: overlay application order (Config) -/

/-- C1: overlays registered through `WithOverlays` are kept in
registration order, `Config` applies them left to right against the
live document, and a later overlay overwrites the value written by an
earlier overlay at an overlapping path (demonstrated by two overlays
writing `server.host`, applied in both orders). -/
theorem config_applies_overlays_in_order :
    (∀ (ovs : List Overlay) (opts : ConfigOptions),
      (WithOverlays ovs opts).overlays = opts.overlays ++ ovs) ∧
    (∀ (doc : Val) (l1 l2 : List (Overlay × List (String × Val))),
      (configApplyOverlays doc l1).2 = none →
      configApplyOverlays doc (l1 ++ l2) =
        configApplyOverlays (configApplyOverlays doc l1).1 l2) ∧
    (configApplyOverlays (.vmap [])
        [(⟨"o1.yaml", "frag", ["server.host"]⟩, [("frag", .vstr "first")]),
         (⟨"o2.yaml", "frag", ["server.host"]⟩, [("frag", .vstr "second")])] =
      (.vmap [("server", .vmap [("host", .vstr "second")])], none)) ∧
    (configApplyOverlays (.vmap [])
        [(⟨"o2.yaml", "frag", ["server.host"]⟩, [("frag", .vstr "second")]),
         (⟨"o1.yaml", "frag", ["server.host"]⟩, [("frag", .vstr "first")])] =
      (.vmap [("server", .vmap [("host", .vstr "first")])], none)) := by
  refine ⟨?_, ?_, ?_, ?_⟩
  · intro ovs opts
    simp [WithOverlays]
  · intro doc l1 l2 h
    induction l1 generalizing doc with
    | nil => simp [configApplyOverlays]
    | cons o rest ih =>
      simp only [configApplyOverlays, List.cons_append] at h ⊢
      cases heq : Overlay.applyTo o.1 o.2 doc with
      | mk doc' eopt =>
        rw [heq] at h
        cases eopt with
        | none => exact ih doc' h
        | some e => exact Option.noConfusion h
  · simp [configApplyOverlays, Overlay.applyTo, resolveFrom, resolveLoop,
      splitDots, splitAux, applyPaths, forge, forgeSeg, hasBracket, setKey,
      mergeVal, plookup, findName, getName, nameListU,
      mergeInto_cons_found, mergeInto_cons_none, Bind.bind, Except.bind]
  · simp [configApplyOverlays, Overlay.applyTo, resolveFrom, resolveLoop,
      splitDots, splitAux, applyPaths, forge, forgeSeg, hasBracket, setKey,
      mergeVal, plookup, findName, getName, nameListU,
      mergeInto_cons_found, mergeInto_cons_none, Bind.bind, Except.bind]

theorem config_applies_overlays_in_order_witness :
    (WithOverlays [⟨"o1.yaml", "frag", ["a"]⟩] defaultConfigOptions).overlays =
      [⟨"o1.yaml", "frag", ["a"]⟩] ∧
    (configApplyOverlays (.vmap []) []).2 = none ∧
    configApplyOverlays (.vmap []) ([] ++ []) =
      configApplyOverlays (configApplyOverlays (.vmap []) []).1 [] := by
  refine ⟨?_, rfl, ?_⟩
  · have := config_applies_overlays_in_order.1 [⟨"o1.yaml", "frag", ["a"]⟩]
      defaultConfigOptions
    simpa [defaultConfigOptions] using this
  · exact config_applies_overlays_in_order.2.1 (.vmap []) [] [] rfl

/-! ## Claim theorems: provider cache, defaults/env precedence, durations -/

/-- C9: the provider's viper instance is constructed at most once: a
first call on an empty cache constructs via the `Source` exactly once
and caches the instance; any sequence of later calls returns the
identical cached instance without invoking the `Source` again and
without replacing the cached pointer. -/
theorem viper_constructed_once_then_cached :
    (∀ n fresh, viperCall ⟨none, n⟩ fresh = (⟨some fresh, n + 1⟩, fresh)) ∧
    (∀ (st : ProviderState) (v : Nat) (fs : List Nat),
      st.viperCache = some v → viperCalls st fs = (st, fs.map fun _ => v)) ∧
    (∀ n f fs, viperCalls ⟨none, n⟩ (f :: fs) =
      (⟨some f, n + 1⟩, f :: fs.map fun _ => f)) := by
  have hcached : ∀ (st : ProviderState) (v : Nat) (fs : List Nat),
      st.viperCache = some v → viperCalls st fs = (st, fs.map fun _ => v) := by
    intro st v fs h
    induction fs with
    | nil => simp [viperCalls]
    | cons f rest ih => simp [viperCalls, viperCall, h, ih]
  refine ⟨fun n fresh => by simp [viperCall], hcached, ?_⟩
  intro n f fs
  simp [viperCalls, viperCall, hcached ⟨some f, n + 1⟩ f fs rfl]

theorem viper_constructed_once_then_cached_witness :
    viperCall ⟨none, 0⟩ 42 = (⟨some 42, 1⟩, 42) ∧
    (ProviderState.mk (some 42) 1).viperCache = some 42 ∧
    viperCalls ⟨some 42, 1⟩ [7, 8] = (⟨some 42, 1⟩, [42, 42]) ∧
    viperCalls ⟨none, 0⟩ [42, 7, 8] = (⟨some 42, 1⟩, [42, 42, 42]) := by
  refine ⟨viper_constructed_once_then_cached.1 0 42, rfl, ?_, ?_⟩
  · simpa using viper_constructed_once_then_cached.2.1 ⟨some 42, 1⟩ 42 [7, 8] rfl
  · simpa using viper_constructed_once_then_cached.2.2 0 42 [7, 8]

/-- C7: a field with compiled default `8080` resolves to `8080` with no
base-file or environment value, to `9090` when the base file supplies
`9090`, and to `7070` when the environment additionally carries
`<PREFIX>_WEBSERVER_PORT=7070` (matching the derived environment
binding for the key `webserver.port`). -/
theorem config_default_precedence :
    WebserverConfig.withDefaults.port = 8080 ∧
    resolveIntField WebserverConfig.withDefaults.port none [] "MYAPP"
      "webserver.port" = 8080 ∧
    resolveIntField WebserverConfig.withDefaults.port (some 9090) [] "MYAPP"
      "webserver.port" = 9090 ∧
    resolveIntField WebserverConfig.withDefaults.port (some 9090)
      [("MYAPP_WEBSERVER_PORT", 7070)] "MYAPP" "webserver.port" = 7070 ∧
    envVarName "MYAPP" "webserver.port" = "MYAPP_WEBSERVER_PORT" :=
  ⟨rfl, rfl, rfl, rfl, rfl⟩

/-- C8: the duration decode hook decodes `"4d3h2m1s"` to
4 days + 3 hours + 2 minutes + 1 second, decodes `"1w"` to 7×24 hours,
fails with a decode error on `"abc"`, and passes any value through
unchanged when the source kind is not string or the target type is not
`time.Duration`. -/
theorem duration_hook_cases :
    Duration .stringT .durationT (.str "4d3h2m1s") =
      .ok (.dur ((4 * 86400 + 3 * 3600 + 2 * 60 + 1) * 1000000000)) ∧
    Duration .stringT .durationT (.str "1w") =
      .ok (.dur (7 * 24 * 3600 * 1000000000)) ∧
    Duration .stringT .durationT (.str "abc") =
      .error "time: invalid duration abc" ∧
    (∀ (f t : RType) (data : HVal),
      f ≠ RType.stringT ∨ t ≠ RType.durationT → Duration f t data = .ok data) := by
  refine ⟨rfl, rfl, rfl, ?_⟩
  intro f t data h
  rcases h with h | h <;> simp [Duration, h]

theorem duration_hook_cases_witness :
    (RType.otherT ≠ RType.stringT ∨ RType.otherT ≠ RType.durationT) ∧
    Duration .otherT .durationT (.str "1w") = .ok (.str "1w") ∧
    Duration .stringT .otherT (.str "1w") = .ok (.str "1w") := by
  refine ⟨by decide, ?_, ?_⟩
  · exact duration_hook_cases.2.2.2 .otherT .durationT (.str "1w") (by decide)
  · exact duration_hook_cases.2.2.2 .stringT .otherT (.str "1w") (by decide)

/-! ## C6: idempotence of applyTo on selector-free paths -/

theorem splitAux_ne_nil : ∀ (cs acc : List Char), splitAux cs acc ≠ []
  | [], acc => by simp [splitAux]
  | c :: rest, acc => by
    by_cases hc : c = '.'
    · simp [splitAux, hc]
    · simpa [splitAux, hc] using splitAux_ne_nil rest (c :: acc)

theorem splitDots_ne_nil (s : String) : splitDots s ≠ [] :=
  splitAux_ne_nil s.data []

theorem forge_plain (filename : String) (segs : List String) (v : Val)
    (h : ∀ s ∈ segs, hasBracket s = false) :
    forge filename segs v = .ok (nestPlain segs v) := by
  induction segs with
  | nil => rfl
  | cons s rest ih =>
    have hs : hasBracket s = false := h s (by simp)
    have hrest := ih (fun x hx => h x (by simp [hx]))
    simp [forge, hrest, forgeSeg, hs, nestPlain, Bind.bind, Except.bind]

theorem wf_nestPlain (segs : List String) (v : Val) (hw : wf v) :
    wf (nestPlain segs v) := by
  induction segs with
  | nil => exact hw
  | cons s rest ih =>
    show wf (Val.vmap [(s, nestPlain rest v)])
    refine (wf_vmap_iff _).2 ⟨by simp, ?_⟩
    intro e he
    simp only [List.mem_singleton] at he
    rw [he]
    exact ih

theorem resolveLoop_wf : ∀ (segs : List String) (path filename : String)
    (slice : List (String × Val)) (acc : Option Val) (v : Val),
    (∀ e ∈ slice, wf e.2) → (∀ x, acc = some x → wf x) →
    resolveLoop path filename slice acc segs = .ok v → wf v
  | [], path, filename, slice, acc, v, hs, ha, h => by
    cases acc with
    | none => simp [resolveLoop] at h
    | some x =>
      simp only [resolveLoop] at h
      by_cases hx : x = .vnull
      · rw [if_pos hx] at h
        exact absurd h (by simp)
      · rw [if_neg hx] at h
        injection h with h'
        rw [← h']
        exact ha x rfl
  | elem :: rest, path, filename, slice, acc, v, hs, ha, h => by
    simp only [resolveLoop] at h
    cases hp : plookup slice elem with
    | none =>
      rw [hp] at h
      exact absurd h (by simp)
    | some w =>
      rw [hp] at h
      have hww : wf w := plookup_wf hs hp
      refine resolveLoop_wf rest path filename _ (some w) v ?_ ?_ h
      · cases w with
        | vmap m =>
          intro e he
          exact ((wf_vmap_iff m).1 hww).2 e he
        | vnull => exact hs
        | vstr s => exact hs
        | vint n => exact hs
        | vlist l => exact hs
      · intro x hx
        injection hx with hx'
        rw [← hx']
        exact hww

theorem resolveFrom_wf (ov : Overlay) (od : List (String × Val)) (v : Val)
    (hwod : ∀ e ∈ od, wf e.2) (h : resolveFrom ov od = .ok v) : wf v :=
  resolveLoop_wf (splitDots ov.From) ov.From ov.Filename od none v hwod
    (fun _ hx => Option.noConfusion hx) h

theorem applyPaths_plain : ∀ (paths : List String) (filename : String) (v doc : Val),
    (∀ p ∈ paths, ∀ s ∈ splitDots p, hasBracket s = false) →
    applyPaths filename v doc paths =
      (foldMerge doc (paths.map fun p => nestPlain (splitDots p) v), none)
  | [], _, _, doc, _ => by simp [applyPaths]
  | p :: rest, filename, v, doc, h => by
    have hfe := forge_plain filename (splitDots p) v (h p (by simp))
    obtain ⟨s0, segs, hsp⟩ := List.exists_cons_of_ne_nil (splitDots_ne_nil p)
    simp only [applyPaths, hfe, List.map_cons, foldMerge_cons]
    rw [hsp]
    exact applyPaths_plain rest filename v
      (mergeVal doc (nestPlain (s0 :: segs) v))
      (fun q hq => h q (List.mem_cons_of_mem p hq))

/-- Replaying an entire patch sequence a second time is the identity:
the saturation stability of `mlemma` extended patch by patch from the
right. -/
theorem foldMerge_replay (Q : List Val) : ∀ (z : Val), wf z →
    (∀ q ∈ Q, wf q) → foldMerge (foldMerge z Q) Q = foldMerge z Q := by
  induction Q using List.reverseRecOn with
  | nil =>
    intro z _ _
    simp
  | append_singleton Qf r ih =>
    intro z hwz hwQ
    have hwQf : ∀ q ∈ Qf, wf q := fun q hq =>
      hwQ q (List.mem_append.2 (Or.inl hq))
    have hwr : wf r := hwQ r (List.mem_append.2 (Or.inr (by simp)))
    have h1 : foldMerge z (Qf ++ [r]) = mergeVal (foldMerge z Qf) r := by
      rw [foldMerge_append]
      simp
    rw [h1, foldMerge_append]
    simp only [foldMerge_cons, foldMerge_nil]
    exact mlemma r (foldMerge z Qf) Qf (wf_foldMerge Qf z hwz hwQf) hwr hwQf
      (ih z hwz hwQf)

/-- C6: for an overlay whose `To` paths contain no selector (bracket)
segments, applying the overlay twice in succession to a target document
yields exactly the same result (document and error) as applying it
once. -/
theorem applyTo_idempotent_plain (ov : Overlay) (od : List (String × Val))
    (doc : Val)
    (hplain : ∀ p ∈ ov.To, ∀ s ∈ splitDots p, hasBracket s = false)
    (hwdoc : wf doc) (hwod : ∀ e ∈ od, wf e.2) :
    ov.applyTo od (ov.applyTo od doc).1 = ov.applyTo od doc := by
  cases hres : resolveFrom ov od with
  | error e => simp [Overlay.applyTo, hres]
  | ok v =>
    have hwv : wf v := resolveFrom_wf ov od v hwod hres
    have hwfr : ∀ q ∈ ov.To.map (fun p => nestPlain (splitDots p) v), wf q := by
      intro q hq
      obtain ⟨p, hp, rfl⟩ := List.mem_map.1 hq
      exact wf_nestPlain (splitDots p) v hwv
    have h1 : ov.applyTo od doc =
        (foldMerge doc (ov.To.map fun p => nestPlain (splitDots p) v), none) := by
      simp only [Overlay.applyTo, hres]
      exact applyPaths_plain ov.To ov.Filename v doc hplain
    rw [h1]
    have h2 : ov.applyTo od
          (foldMerge doc (ov.To.map fun p => nestPlain (splitDots p) v)) =
        (foldMerge (foldMerge doc (ov.To.map fun p => nestPlain (splitDots p) v))
          (ov.To.map fun p => nestPlain (splitDots p) v), none) := by
      simp only [Overlay.applyTo, hres]
      exact applyPaths_plain ov.To ov.Filename v _ hplain
    rw [h2, foldMerge_replay _ doc hwdoc hwfr]

theorem applyTo_idempotent_plain_witness :
    (∀ p ∈ ["webserver.port"], ∀ s ∈ splitDots p, hasBracket s = false) ∧
    Overlay.applyTo ⟨"o.yaml", "defaults", ["webserver.port"]⟩
        [("defaults", Val.vint 7070)]
        (Overlay.applyTo ⟨"o.yaml", "defaults", ["webserver.port"]⟩
          [("defaults", Val.vint 7070)] Val.vnull).1 =
      Overlay.applyTo ⟨"o.yaml", "defaults", ["webserver.port"]⟩
        [("defaults", Val.vint 7070)] Val.vnull :=
  ⟨by decide, applyTo_idempotent_plain _ _ _ (by decide) wf_vnull
    (by
      intro e he
      simp only [List.mem_singleton] at he
      subst he
      simp)⟩

end Stdfx
